import Mathlib

/-
  Verification development for the RobotEvents Firebase sync system.

  The JavaScript sources are shallowly embedded: JSON-like runtime values
  become the inductive type JVal, JavaScript objects become association
  lists of fields (runtime JS objects always carry distinct keys, which the
  well-formedness predicates below make explicit where a proof needs it),
  Date and Firestore Timestamp values carry their epoch-millisecond instant,
  and the stores (Firestore collections, the in-memory live cache) become
  association lists from identity strings to values.
-/

set_option maxHeartbeats 1000000
set_option maxRecDepth 100000

/-- Model of a JavaScript runtime value as it occurs in the sync scripts:
JSON scalars, arrays, objects, plus undefined, JS Date values and Firestore
Timestamp values (both carrying their instant in epoch milliseconds). -/
inductive JVal where
  | null : JVal
  | undef : JVal
  | bool : Bool → JVal
  | num : Int → JVal
  | str : String → JVal
  | date : Int → JVal
  | timestamp : Int → JVal
  | arr : List JVal → JVal
  | obj : List (String × JVal) → JVal

/-- JavaScript truthiness of a value. -/
def jsTruthy : JVal → Bool
  | .null => false
  | .undef => false
  | .bool b => b
  | .num n => n != 0
  | .str s => s != ""
  | _ => true

/-- Lookup of a property in a field list; the last binding wins, matching
assignment order in a JavaScript object literal or reduce loop. -/
def jsGet : List (String × JVal) → String → Option JVal
  | [], _ => none
  | p :: rest, k =>
      match jsGet rest k with
      | some v => some v
      | none => if p.1 = k then some p.2 else none

/-- Property access v.k as a JVal; a missing property reads as undefined. -/
def jsField (v : JVal) (k : String) : JVal :=
  match v with
  | .obj f => (jsGet f k).getD .undef
  | _ => JVal.undef

/-- Assignment obj.k = v: replaces the binding in place if the key exists,
otherwise appends it, matching JS property update order. -/
def setField : List (String × JVal) → String → JVal → List (String × JVal)
  | [], k, v => [(k, v)]
  | p :: rest, k, v => if p.1 = k then (k, v) :: rest else p :: setField rest k v

/-- Whether a field list binds a key. -/
def hasKey : List (String × JVal) → String → Bool
  | [], _ => false
  | p :: rest, k => p.1 == k || hasKey rest k

/-- The JS delete operator on a property. -/
def deleteField (fields : List (String × JVal)) (k : String) : List (String × JVal) :=
  fields.filter (fun p => p.1 ≠ k)

/-- Own enumerable fields of a Firestore Timestamp, as JSON.stringify and
object spread see them. -/
def tsFields (t : Int) : List (String × JVal) :=
  [("_seconds", JVal.num (t.fdiv 1000)), ("_nanoseconds", JVal.num (t.emod 1000 * 1000000))]

/-- Object spread: copies the own enumerable properties of a value into a
fresh field list, later duplicate keys overwriting earlier ones.  A Date has
no own enumerable properties; a Timestamp exposes its two counter fields;
an array exposes its index keys. -/
def jsSpread : JVal → List (String × JVal)
  | .obj f => f.foldl (fun acc p => setField acc p.1 p.2) []
  | .arr l => (l.enum.map fun p => (toString p.1, p.2))
  | .timestamp t => tsFields t
  | _ => []

/-- True exactly on null and undefined. -/
def isNullish : JVal → Bool
  | .null => true
  | .undef => true
  | _ => false

/-- Two-digit zero padding for date formatting. -/
def pad2 (n : Nat) : String :=
  if n < 10 then "0" ++ toString n else toString n

/-- Three-digit zero padding for millisecond formatting. -/
def pad3 (n : Nat) : String :=
  if n < 10 then "00" ++ toString n else if n < 100 then "0" ++ toString n else toString n

/-- Four-digit zero padding for year formatting (years of this system are
in the four-digit range). -/
def pad4 (n : Nat) : String :=
  if n < 10 then "000" ++ toString n
  else if n < 100 then "00" ++ toString n
  else if n < 1000 then "0" ++ toString n
  else toString n

/-- Gregorian civil date from a count of days since 1970-01-01, using the
standard era decomposition. Returns (year, month, day). -/
def civilFromDays (z0 : Int) : Int × Nat × Nat :=
  let z := z0 + 719468
  let era := z.fdiv 146097
  let doe := (z - era * 146097).toNat
  let yoe := (doe - doe / 1460 + doe / 36524 - doe / 146096) / 365
  let doy := doe - (365 * yoe + yoe / 4 - yoe / 100)
  let mp := (5 * doy + 2) / 153
  let d := doy - (153 * mp + 2) / 5 + 1
  let m := if mp < 10 then mp + 3 else mp - 9
  (era * 400 + yoe + (if m ≤ 2 then 1 else 0), m, d)

/-- The ISO 8601 string produced by Date.prototype.toISOString for an epoch
millisecond instant. -/
def isoOfMs (ms : Int) : String :=
  let day := ms.fdiv 86400000
  let msod := (ms.emod 86400000).toNat
  let c := civilFromDays day
  pad4 c.1.toNat ++ "-" ++ pad2 c.2.1 ++ "-" ++ pad2 c.2.2 ++ "T" ++
    pad2 (msod / 3600000) ++ ":" ++ pad2 (msod % 3600000 / 60000) ++ ":" ++
    pad2 (msod % 60000 / 1000) ++ "." ++ pad3 (msod % 1000) ++ "Z"

/-- The calendar-date part of the ISO string, as produced by
toISOString followed by splitting at the letter T. -/
def isoDateOfMs (ms : Int) : String :=
  let day := ms.fdiv 86400000
  let c := civilFromDays day
  pad4 c.1.toNat ++ "-" ++ pad2 c.2.1 ++ "-" ++ pad2 c.2.2

mutual

/-- The JSON round trip JSON.parse(JSON.stringify(obj, replacer)) performed
by cleanForComparison in the firebase helpers, with the replacer turning
undefined values into null.  Stringify first applies toJSON, so a Date
serializes to its ISO instant string, while a Firestore Timestamp (which has
no toJSON) serializes through its own enumerable counter fields. -/
def jsonRT : JVal → JVal
  | .null => .null
  | .undef => .null
  | .bool b => .bool b
  | .num n => .num n
  | .str s => .str s
  | .date t => .str (isoOfMs t)
  | .timestamp t => .obj (tsFields t)
  | .arr l => .arr (jsonRTList l)
  | .obj f => .obj (jsonRTFields f)

/-- JSON round trip mapped over array elements. -/
def jsonRTList : List JVal → List JVal
  | [] => []
  | v :: rest => jsonRT v :: jsonRTList rest

/-- JSON round trip mapped over object fields. -/
def jsonRTFields : List (String × JVal) → List (String × JVal)
  | [] => []
  | (k, v) :: rest => (k, jsonRT v) :: jsonRTFields rest

end

/-- Embedding of cleanForComparison from the firebase helpers: null and
undefined collapse to null, and every other value goes through the JSON
round trip with the undefined-to-null replacer. -/
def cleanForComparison (v : JVal) : JVal :=
  if isNullish v then .null else jsonRT v

mutual

/-- Embedding of stripNulls from the firebase helpers: arrays are mapped
elementwise, and object fields whose stripped value is null or undefined
are dropped.  A Date reaches the object branch of the JS code (typeof is
object) and so strips to an empty object; a Timestamp strips to a plain
object holding its counter fields. -/
def stripNulls : JVal → JVal
  | .arr l => .arr (stripNullsList l)
  | .obj f => .obj (stripNullsFields f)
  | .date _ => .obj []
  | .timestamp t => .obj (tsFields t)
  | v => v

/-- stripNulls mapped over array elements. -/
def stripNullsList : List JVal → List JVal
  | [] => []
  | v :: rest => stripNulls v :: stripNullsList rest

/-- stripNulls over object fields, dropping fields whose stripped value is
null or undefined. -/
def stripNullsFields : List (String × JVal) → List (String × JVal)
  | [] => []
  | (k, v) :: rest =>
      let val := stripNulls v
      if isNullish val then stripNullsFields rest
      else (k, val) :: stripNullsFields rest

end

/-- JS strict equality for primitive values; two composite values compare
by reference in JS, which the structural branches of deepEqual decide, so
this helper answers false for them. -/
def primEq : JVal → JVal → Bool
  | .null, .null => true
  | .undef, .undef => true
  | .bool a, .bool b => a == b
  | .num a, .num b => a == b
  | .str a, .str b => a == b
  | _, _ => false

mutual

/-- Embedding of deepEqual from the firebase helpers.  The JS function
checks, in order: strict equality, the null-or-undefined pairing, Timestamp
unwrapping via toDate, Date instant comparison, the non-object early false,
the Array.isArray mismatch, and finally a comparison of sorted key lists
with per-key recursion.  The dispatch below reproduces exactly those
decisions per constructor pair: for two objects, equal sorted key lists of
distinct keys amount to equal field counts plus every key of the first
object being present in the second, and a Date entering the object branch
exposes an empty key list. -/
def deepEqual : JVal → JVal → Bool
  | .null, w => isNullish w
  | .undef, w => isNullish w
  | .bool a, w => match w with | .bool b => a == b | _ => false
  | .num a, w => match w with | .num b => a == b | _ => false
  | .str a, w => match w with | .str b => a == b | _ => false
  | .date t, w =>
      (match w with
       | .date u => t == u
       | .timestamp u => t == u
       | .obj f => f.isEmpty
       | _ => false)
  | .timestamp t, w =>
      (match w with
       | .date u => t == u
       | .timestamp u => t == u
       | .obj f => f.isEmpty
       | _ => false)
  | .arr l1, w =>
      (match w with
       | .arr l2 => l1.length == l2.length && deepEqualList l1 l2
       | _ => false)
  | .obj f1, w =>
      (match w with
       | .obj f2 => f1.length == f2.length && deepEqualFields f1 f2
       | .date _ => f1.isEmpty
       | .timestamp _ => f1.isEmpty
       | _ => false)

/-- Elementwise comparison of array contents, paired by index. -/
def deepEqualList : List JVal → List JVal → Bool
  | [], _ => true
  | _ :: _, [] => true
  | a :: as, b :: bs => deepEqual a b && deepEqualList as bs

/-- Per-key comparison of the first field list against the second. -/
def deepEqualFields : List (String × JVal) → List (String × JVal) → Bool
  | [], _ => true
  | (k, v) :: rest, f2 =>
      (match jsGet f2 k with
       | some w => deepEqual v w
       | none => false) && deepEqualFields rest f2

end

/-- Distinctness of the keys of a field list; runtime JavaScript objects
always satisfy this. -/
def nodupKeys : List (String × JVal) → Bool
  | [] => true
  | (k, _) :: rest => !(hasKey rest k) && nodupKeys rest

mutual

/-- Values that occur in parsed JSON payloads of the API: scalars, arrays
and objects with distinct keys; no undefined, Date or Timestamp values. -/
def plainJson : JVal → Bool
  | .null => true
  | .bool _ => true
  | .num _ => true
  | .str _ => true
  | .undef => false
  | .date _ => false
  | .timestamp _ => false
  | .arr l => plainJsonList l
  | .obj f => nodupKeys f && plainJsonFields f

/-- plainJson over array elements. -/
def plainJsonList : List JVal → Bool
  | [] => true
  | v :: rest => plainJson v && plainJsonList rest

/-- plainJson over object field values. -/
def plainJsonFields : List (String × JVal) → Bool
  | [] => true
  | (_, v) :: rest => plainJson v && plainJsonFields rest

end

mutual

/-- Holds when no object key anywhere in the value is bound to null or
undefined (array elements may still be null). -/
def noNullBindings : JVal → Bool
  | .arr l => noNullBindingsList l
  | .obj f => noNullBindingsFields f
  | _ => true

/-- noNullBindings over array elements. -/
def noNullBindingsList : List JVal → Bool
  | [] => true
  | v :: rest => noNullBindings v && noNullBindingsList rest

/-- noNullBindings over object fields, also requiring each bound value to
be non-nullish. -/
def noNullBindingsFields : List (String × JVal) → Bool
  | [] => true
  | (_, v) :: rest => !(isNullish v) && noNullBindings v && noNullBindingsFields rest

end

/-- A document handed to the batch writer: an identity and a payload,
matching the id and data fields used by the sync scripts. -/
structure FsDoc where
  id : String
  data : JVal

/-- A Firestore collection modeled as an association list from document
identity to the stored document value. -/
abbrev Store := List (String × JVal)

/-- Read of a document snapshot: some value when the document exists. -/
def storeGet (s : Store) (id : String) : Option JVal :=
  jsGet s id

mutual

/-- Models Firestore set with merge true: map-valued fields merge
recursively, any other field is overwritten, matching the documented
Firestore merge semantics used by batch.set in the helpers. -/
def fsMergeVal : JVal → JVal → JVal
  | .obj oldF, .obj newF => .obj (fsMergeFields oldF newF)
  | _, v => v

/-- Folds the new fields into the old field list with recursive merging. -/
def fsMergeFields : List (String × JVal) → List (String × JVal) → List (String × JVal)
  | oldF, [] => oldF
  | oldF, (k, v) :: rest =>
      let merged := match jsGet oldF k with
        | some w => fsMergeVal w v
        | none => v
      fsMergeFields (setField oldF k merged) rest

end

/-- A staged batch.set applied to the store at commit time. -/
def storeSet (s : Store) (id : String) (v : JVal) (merge : Bool) : Store :=
  let newV :=
    if merge then
      match storeGet s id with
      | some old => fsMergeVal old v
      | none => v
    else v
  setField s id newV

/-- The value staged by the writer for one document: the payload spread
into a fresh object plus the server-assigned lastUpdated timestamp, whose
commit-time instant is the t parameter. -/
def jsWritten (data : JVal) (t : Int) : JVal :=
  .obj (setField (jsSpread data) "lastUpdated" (.timestamp t))

/-- The stored copy prepared for comparison: the lastUpdated field is
deleted when present (the JS code guards the delete with a truthiness
check on the field). -/
def existingForCompare (w : JVal) : JVal :=
  match w with
  | .obj f =>
      if jsTruthy ((jsGet f "lastUpdated").getD .undef) then .obj (deleteField f "lastUpdated")
      else .obj f
  | v => v

/-- The per-document decision of batchWriteToFirestore: write when no
snapshot exists, otherwise write exactly when the cleaned stored copy and
the cleaned incoming payload are not deepEqual. -/
def shouldWriteDoc (snap : Option JVal) (data : JVal) : Bool :=
  match snap with
  | some w => !(deepEqual (cleanForComparison (existingForCompare w)) (cleanForComparison data))
  | none => true

/-- The writes staged for one chunk: snapshots for the whole chunk are read
first in one batched read (the zip pairs each document with its snapshot),
then each unchanged document is skipped and the rest are staged with the
fresh server timestamp. -/
def chunkWrites (t : Int) (s : Store) (chunk : List FsDoc) : List (String × JVal) :=
  (chunk.zip (chunk.map (fun d => storeGet s d.id))).filterMap (fun p =>
    if shouldWriteDoc p.2 p.1.data then some (p.1.id, jsWritten p.1.data t) else none)

/-- One chunk of up to the batch limit: the staged writes are committed as
one group under merge semantics, and the count of staged writes is the
number of documents reported as updated for the chunk. -/
def processChunk (t : Int) (s : Store) (chunk : List FsDoc) : Store × Nat :=
  ((chunkWrites t s chunk).foldl (fun st w => storeSet st w.1 w.2 true) s,
    (chunkWrites t s chunk).length)

/-- Firestore batch limit used by the helpers. -/
def BATCH_SIZE : Nat := 500

/-- Chunked driver of the writer, accumulating the count of documents
actually written. -/
def batchWriteGo (t : Int) : Store → List FsDoc → Nat → Store × Nat
  | s, [], acc => (s, acc)
  | s, d :: ds, acc =>
      let chunk := (d :: ds).take BATCH_SIZE
      let rest := (d :: ds).drop BATCH_SIZE
      let r := processChunk t s chunk
      batchWriteGo t r.1 rest (acc + r.2)
termination_by _ docs _ => docs.length
decreasing_by simp [BATCH_SIZE]; omega

/-- Embedding of batchWriteToFirestore from the firebase helpers (the
change-aware variant imported by the orchestrator, with checkBeforeWrite
at its default true): processes documents in chunks of up to 500, skips
documents whose cleaned stored copy deepEquals the cleaned payload, stages
the rest with a fresh server timestamp under merge semantics, and returns
the count of documents actually written.  The t parameter is the commit
instant assigned by the server. -/
def batchWriteToFirestore (t : Int) (s : Store) (documents : List FsDoc) : Store × Nat :=
  batchWriteGo t s documents 0

/-- Distinctness of the identities of a document list. -/
def nodupIds : List FsDoc → Bool
  | [] => true
  | d :: rest => !(rest.any (fun x => x.id == d.id)) && nodupIds rest

/-- Payloads the orchestrator actually hands to the writer: a parsed JSON
object that does not itself bind the reserved lastUpdated key. -/
def goodPayload : JVal → Bool
  | .obj f => !(hasKey f "lastUpdated") && plainJson (.obj f)
  | _ => false


theorem hasKey_eq_false_iff {f : List (String × JVal)} {k : String} :
    hasKey f k = false ↔ ∀ p ∈ f, p.1 ≠ k := by
  induction f with
  | nil => simp [hasKey]
  | cons q rest ih => simp [hasKey, ih]

theorem jsGet_eq_none_of_not_hasKey {f : List (String × JVal)} {k : String}
    (h : hasKey f k = false) : jsGet f k = none := by
  induction f with
  | nil => rfl
  | cons p rest ih =>
      simp only [hasKey, Bool.or_eq_false_iff, beq_eq_false_iff_ne] at h
      simp [jsGet, ih (by simp [hasKey] at h ⊢; exact h.2), h.1]

theorem jsGet_of_nodup_mem {f : List (String × JVal)} {k : String} {v : JVal}
    (hnd : nodupKeys f = true) (hmem : (k, v) ∈ f) : jsGet f k = some v := by
  induction f with
  | nil => simp at hmem
  | cons p rest ih =>
      obtain ⟨k0, v0⟩ := p
      simp only [nodupKeys, Bool.and_eq_true, Bool.not_eq_true'] at hnd
      rcases List.mem_cons.mp hmem with h | h
      · cases h
        have hnone : jsGet rest k = none := jsGet_eq_none_of_not_hasKey hnd.1
        simp [jsGet, hnone]
      · simp [jsGet, ih hnd.2 h]

theorem setField_eq_append_of_not_hasKey {f : List (String × JVal)} {k : String}
    (v : JVal) (h : hasKey f k = false) : setField f k v = f ++ [(k, v)] := by
  induction f with
  | nil => rfl
  | cons p rest ih =>
      simp only [hasKey, Bool.or_eq_false_iff, beq_eq_false_iff_ne] at h
      simp [setField, h.1, ih (by simp [hasKey] at h ⊢; exact h.2)]

theorem deleteField_eq_self_of_not_hasKey {f : List (String × JVal)} {k : String}
    (h : hasKey f k = false) : deleteField f k = f := by
  induction f with
  | nil => rfl
  | cons p rest ih =>
      simp only [hasKey, Bool.or_eq_false_iff, beq_eq_false_iff_ne] at h
      have ih2 := ih (by simp [hasKey] at h ⊢; exact h.2)
      simp only [deleteField] at ih2 ⊢
      simp [List.filter_cons, h.1, ih2]
      intro a b hab
      exact hasKey_eq_false_iff.mp h.2 (a, b) hab

theorem jsGet_append_single_same (f : List (String × JVal)) (k : String) (v : JVal) :
    jsGet (f ++ [(k, v)]) k = some v := by
  induction f with
  | nil => simp [jsGet]
  | cons p rest ih => simp [jsGet, ih]

theorem deleteField_append_single_same (f : List (String × JVal)) (k : String) (v : JVal) :
    deleteField (f ++ [(k, v)]) k = deleteField f k := by
  simp [deleteField, List.filter_append]

theorem hasKey_append (f g : List (String × JVal)) (k : String) :
    hasKey (f ++ g) k = (hasKey f k || hasKey g k) := by
  induction f with
  | nil => simp [hasKey]
  | cons p rest ih => simp [hasKey, ih, Bool.or_assoc]

theorem foldl_setField_of_disjoint :
    ∀ (f acc : List (String × JVal)),
      nodupKeys f = true → (∀ p ∈ f, hasKey acc p.1 = false) →
      f.foldl (fun a p => setField a p.1 p.2) acc = acc ++ f
  | [], acc, _, _ => by simp
  | (k, v) :: rest, acc, hnd, hdis => by
      simp only [nodupKeys, Bool.and_eq_true, Bool.not_eq_true'] at hnd
      have h1 : hasKey acc k = false := hdis (k, v) (List.mem_cons_self _ _)
      have step : setField acc k v = acc ++ [(k, v)] := setField_eq_append_of_not_hasKey v h1
      have hdis2 : ∀ p ∈ rest, hasKey (acc ++ [(k, v)]) p.1 = false := by
        intro p hp
        have hpk : p.1 ≠ k := hasKey_eq_false_iff.mp hnd.1 p hp
        rw [hasKey_append]
        simp [hasKey, hdis p (List.mem_cons_of_mem _ hp)]
        exact fun e => hpk e.symm
      calc ((k, v) :: rest).foldl (fun a p => setField a p.1 p.2) acc
          = rest.foldl (fun a p => setField a p.1 p.2) (setField acc k v) := rfl
        _ = rest.foldl (fun a p => setField a p.1 p.2) (acc ++ [(k, v)]) := by rw [step]
        _ = (acc ++ [(k, v)]) ++ rest := foldl_setField_of_disjoint rest _ hnd.2 hdis2
        _ = acc ++ ((k, v) :: rest) := by simp

theorem jsSpread_obj_of_nodup {f : List (String × JVal)} (h : nodupKeys f = true) :
    jsSpread (.obj f) = f := by
  have := foldl_setField_of_disjoint f [] h (by intro p _; rfl)
  simpa [jsSpread] using this

mutual

theorem deepEqual_refl : ∀ v : JVal, plainJson v = true → deepEqual v v = true
  | .null, _ => rfl
  | .bool b, _ => by simp [deepEqual]
  | .num n, _ => by simp [deepEqual]
  | .str s, _ => by simp [deepEqual]
  | .undef, h => by simp [plainJson] at h
  | .date t, h => by simp [plainJson] at h
  | .timestamp t, h => by simp [plainJson] at h
  | .arr l, h => by
      simp only [plainJson] at h
      simp [deepEqual, deepEqualList_refl l h]
  | .obj f, h => by
      simp only [plainJson, Bool.and_eq_true] at h
      have hall : ∀ p ∈ f, jsGet f p.1 = some p.2 := by
        intro p hp
        exact jsGet_of_nodup_mem h.1 (by simpa using hp)
      simp [deepEqual, deepEqualFields_refl f f h.2 hall]

theorem deepEqualList_refl : ∀ l : List JVal, plainJsonList l = true → deepEqualList l l = true
  | [], _ => rfl
  | v :: rest, h => by
      simp only [plainJsonList, Bool.and_eq_true] at h
      simp [deepEqualList, deepEqual_refl v h.1, deepEqualList_refl rest h.2]

theorem deepEqualFields_refl : ∀ (g f : List (String × JVal)),
    plainJsonFields g = true → (∀ p ∈ g, jsGet f p.1 = some p.2) → deepEqualFields g f = true
  | [], _, _, _ => rfl
  | (k, v) :: rest, f, h, hget => by
      simp only [plainJsonFields, Bool.and_eq_true] at h
      have h1 : jsGet f k = some v := hget (k, v) (List.mem_cons_self _ _)
      simp [deepEqualFields, h1, deepEqual_refl v h.1,
        deepEqualFields_refl rest f h.2 (fun p hp => hget p (List.mem_cons_of_mem _ hp))]

end

theorem hasKey_jsonRTFields : ∀ (f : List (String × JVal)) (k : String),
    hasKey (jsonRTFields f) k = hasKey f k
  | [], _ => rfl
  | (k0, v0) :: rest, k => by
      simp [jsonRTFields, hasKey, hasKey_jsonRTFields rest k]

theorem nodupKeys_jsonRTFields : ∀ f : List (String × JVal),
    nodupKeys (jsonRTFields f) = nodupKeys f
  | [] => rfl
  | (k0, v0) :: rest => by
      simp [jsonRTFields, nodupKeys, hasKey_jsonRTFields, nodupKeys_jsonRTFields rest]

theorem nodupKeys_tsFields (t : Int) : nodupKeys (tsFields t) = true := by
  simp [tsFields, nodupKeys, hasKey]

mutual

theorem plainJson_jsonRT : ∀ v : JVal, plainJson v = true → plainJson (jsonRT v) = true
  | .null, _ => rfl
  | .bool b, _ => rfl
  | .num n, _ => rfl
  | .str s, _ => rfl
  | .undef, h => by simp [plainJson] at h
  | .date t, h => by simp [plainJson] at h
  | .timestamp t, h => by simp [plainJson] at h
  | .arr l, h => by
      simp only [plainJson] at h ⊢
      simp [jsonRT, plainJson, plainJsonList_jsonRT l h]
  | .obj f, h => by
      simp only [plainJson, Bool.and_eq_true] at h
      simp [jsonRT, plainJson, nodupKeys_jsonRTFields, h.1, plainJsonFields_jsonRT f h.2]

theorem plainJsonList_jsonRT : ∀ l : List JVal,
    plainJsonList l = true → plainJsonList (jsonRTList l) = true
  | [], _ => rfl
  | v :: rest, h => by
      simp only [plainJsonList, Bool.and_eq_true] at h
      simp [jsonRTList, plainJsonList, plainJson_jsonRT v h.1, plainJsonList_jsonRT rest h.2]

theorem plainJsonFields_jsonRT : ∀ f : List (String × JVal),
    plainJsonFields f = true → plainJsonFields (jsonRTFields f) = true
  | [], _ => rfl
  | (k, v) :: rest, h => by
      simp only [plainJsonFields, Bool.and_eq_true] at h
      simp [jsonRTFields, plainJsonFields, plainJson_jsonRT v h.1, plainJsonFields_jsonRT rest h.2]

end

theorem deepEqual_clean_self {v : JVal} (h : plainJson v = true) :
    deepEqual (cleanForComparison v) (cleanForComparison v) = true := by
  unfold cleanForComparison
  cases hn : isNullish v with
  | true =>
      simp only [hn, if_true]
      decide
  | false =>
      simp only [Bool.false_eq_true, if_false]
      exact deepEqual_refl _ (plainJson_jsonRT v h)

theorem isNullish_stripNulls : ∀ v : JVal, isNullish (stripNulls v) = isNullish v
  | .null => rfl
  | .undef => rfl
  | .bool _ => rfl
  | .num _ => rfl
  | .str _ => rfl
  | .date _ => rfl
  | .timestamp _ => rfl
  | .arr _ => rfl
  | .obj _ => rfl

mutual

theorem stripNulls_idem : ∀ v : JVal, stripNulls (stripNulls v) = stripNulls v
  | .null => rfl
  | .undef => rfl
  | .bool _ => rfl
  | .num _ => rfl
  | .str _ => rfl
  | .date _ => rfl
  | .timestamp t => by simp [stripNulls, tsFields, stripNullsFields, isNullish]
  | .arr l => by simp [stripNulls, stripNullsList_idem l]
  | .obj f => by simp [stripNulls, stripNullsFields_idem f]

theorem stripNullsList_idem : ∀ l : List JVal, stripNullsList (stripNullsList l) = stripNullsList l
  | [] => rfl
  | v :: rest => by simp [stripNullsList, stripNulls_idem v, stripNullsList_idem rest]

theorem stripNullsFields_idem : ∀ f : List (String × JVal),
    stripNullsFields (stripNullsFields f) = stripNullsFields f
  | [] => rfl
  | (k, v) :: rest => by
      cases hn : isNullish (stripNulls v) with
      | true => simp [stripNullsFields, hn, stripNullsFields_idem rest]
      | false =>
          simp only [stripNullsFields, hn]
          simp [stripNullsFields, stripNulls_idem v, hn, stripNullsFields_idem rest]

end

mutual

theorem noNullBindings_stripNulls : ∀ v : JVal, noNullBindings (stripNulls v) = true
  | .null => rfl
  | .undef => rfl
  | .bool _ => rfl
  | .num _ => rfl
  | .str _ => rfl
  | .date _ => rfl
  | .timestamp t => by simp [stripNulls, tsFields, noNullBindings, noNullBindingsFields, isNullish]
  | .arr l => by simp [stripNulls, noNullBindings, noNullBindingsList_stripNulls l]
  | .obj f => by simp [stripNulls, noNullBindings, noNullBindingsFields_stripNulls f]

theorem noNullBindingsList_stripNulls : ∀ l : List JVal,
    noNullBindingsList (stripNullsList l) = true
  | [] => rfl
  | v :: rest => by
      simp [stripNullsList, noNullBindingsList, noNullBindings_stripNulls v,
        noNullBindingsList_stripNulls rest]

theorem noNullBindingsFields_stripNulls : ∀ f : List (String × JVal),
    noNullBindingsFields (stripNullsFields f) = true
  | [] => rfl
  | (k, v) :: rest => by
      cases hn : isNullish (stripNulls v) with
      | true => simp [stripNullsFields, hn, noNullBindingsFields_stripNulls rest]
      | false =>
          simp [stripNullsFields, hn, noNullBindingsFields, noNullBindings_stripNulls v,
            noNullBindingsFields_stripNulls rest]

end

theorem stripNullsFields_filter_nullish : ∀ f : List (String × JVal),
    stripNullsFields (f.filter (fun p => !(isNullish p.2))) = stripNullsFields f
  | [] => rfl
  | (k, v) :: rest => by
      cases hv : isNullish v with
      | true =>
          have hsv : isNullish (stripNulls v) = true := by rw [isNullish_stripNulls]; exact hv
          simp [List.filter_cons, hv, stripNullsFields, hsv, stripNullsFields_filter_nullish rest]
      | false =>
          simp [List.filter_cons, hv, stripNullsFields, stripNullsFields_filter_nullish rest]

/-- C10: stripNulls is idempotent, its result never binds an object key to
a null or undefined value, and dropping the null-or-undefined-valued fields
of an object before stripping does not change the stripped result, so the
live-mode cache comparison of stripped documents is insensitive to
null-valued fields of the incoming payload. -/
theorem stripNulls_idempotent_and_null_insensitive :
    (∀ v : JVal, stripNulls (stripNulls v) = stripNulls v) ∧
    (∀ v : JVal, noNullBindings (stripNulls v) = true) ∧
    (∀ f : List (String × JVal),
      stripNulls (JVal.obj (f.filter (fun p => !(isNullish p.2)))) = stripNulls (JVal.obj f)) :=
  ⟨stripNulls_idem, noNullBindings_stripNulls,
   fun f => by simp [stripNulls, stripNullsFields_filter_nullish f]⟩

theorem jsGet_eq_none_iff {f : List (String × JVal)} {k : String} :
    jsGet f k = none ↔ hasKey f k = false := by
  induction f with
  | nil => simp [jsGet, hasKey]
  | cons p rest ih =>
      simp only [jsGet, hasKey, Bool.or_eq_false_iff, beq_eq_false_iff_ne]
      cases hr : jsGet rest k with
      | some v =>
          simp only [hr]
          constructor
          · intro h; simp at h
          · intro h
            exact absurd hr (by simp [ih.mpr h.2])
      | none => simp [hr, ih.mp hr]

theorem jsGet_append (f g : List (String × JVal)) (k : String) :
    jsGet (f ++ g) k =
      match jsGet g k with
      | some v => some v
      | none => jsGet f k := by
  induction f with
  | nil =>
      simp only [List.nil_append]
      cases h : jsGet g k <;> simp [jsGet, h]
  | cons p rest ih =>
      cases hg : jsGet g k <;> cases hr : jsGet rest k <;>
        simp [List.cons_append, jsGet, ih, hg, hr]

theorem zip_self_map {α β : Type} (l : List α) (g : α → β) :
    l.zip (l.map g) = l.map (fun a => (a, g a)) := by
  induction l with
  | nil => rfl
  | cons a rest ih => simp [ih]

theorem hasKey_writes (t : Int) (chunk : List FsDoc) (k : String) :
    hasKey (chunk.map (fun d => (d.id, jsWritten d.data t))) k = chunk.any (fun d => d.id == k) := by
  induction chunk with
  | nil => rfl
  | cons d rest ih => simp [hasKey, ih]

theorem nodupKeys_writes (t : Int) (chunk : List FsDoc) (h : nodupIds chunk = true) :
    nodupKeys (chunk.map (fun d => (d.id, jsWritten d.data t))) = true := by
  induction chunk with
  | nil => rfl
  | cons d rest ih =>
      simp only [nodupIds, Bool.and_eq_true, Bool.not_eq_true'] at h
      simp [nodupKeys, hasKey_writes, h.1, ih h.2]

theorem foldl_storeSet_of_disjoint :
    ∀ (ws : List (String × JVal)) (s : Store),
      nodupKeys ws = true → (∀ p ∈ ws, hasKey s p.1 = false) →
      ws.foldl (fun st w => storeSet st w.1 w.2 true) s = s ++ ws
  | [], s, _, _ => by simp
  | (k, v) :: rest, s, hnd, hdis => by
      simp only [nodupKeys, Bool.and_eq_true, Bool.not_eq_true'] at hnd
      have h1 : hasKey s k = false := hdis (k, v) (List.mem_cons_self _ _)
      have hnone : storeGet s k = none := jsGet_eq_none_iff.mpr h1
      have step : storeSet s k v true = s ++ [(k, v)] := by
        simp [storeSet, hnone, setField_eq_append_of_not_hasKey v h1]
      have hdis2 : ∀ p ∈ rest, hasKey (s ++ [(k, v)]) p.1 = false := by
        intro p hp
        have hpk : p.1 ≠ k := hasKey_eq_false_iff.mp hnd.1 p hp
        rw [hasKey_append]
        simp [hasKey, hdis p (List.mem_cons_of_mem _ hp)]
        exact fun e => hpk e.symm
      calc ((k, v) :: rest).foldl (fun st w => storeSet st w.1 w.2 true) s
          = rest.foldl (fun st w => storeSet st w.1 w.2 true) (storeSet s k v true) := rfl
        _ = rest.foldl (fun st w => storeSet st w.1 w.2 true) (s ++ [(k, v)]) := by rw [step]
        _ = (s ++ [(k, v)]) ++ rest := foldl_storeSet_of_disjoint rest _ hnd.2 hdis2
        _ = s ++ ((k, v) :: rest) := by simp

theorem chunkWrites_fresh (t : Int) (s : Store) (chunk : List FsDoc)
    (hfresh : ∀ d ∈ chunk, storeGet s d.id = none) :
    chunkWrites t s chunk = chunk.map (fun d => (d.id, jsWritten d.data t)) := by
  unfold chunkWrites
  rw [zip_self_map, List.filterMap_map]
  have : ∀ d ∈ chunk,
      ((fun p : FsDoc × Option JVal =>
        if shouldWriteDoc p.2 p.1.data then some (p.1.id, jsWritten p.1.data t) else none) ∘
        (fun a => (a, storeGet s a.id))) d = some (d.id, jsWritten d.data t) := by
    intro d hd
    simp [hfresh d hd, shouldWriteDoc]
  rw [List.filterMap_congr this]
  exact congrFun (List.filterMap_eq_map (fun d : FsDoc => (d.id, jsWritten d.data t))) chunk

theorem processChunk_fresh (t : Int) (s : Store) (chunk : List FsDoc)
    (hfresh : ∀ d ∈ chunk, storeGet s d.id = none)
    (hnd : nodupIds chunk = true) :
    processChunk t s chunk = (s ++ chunk.map (fun d => (d.id, jsWritten d.data t)), chunk.length) := by
  have hdis : ∀ p ∈ chunk.map (fun d => (d.id, jsWritten d.data t)), hasKey s p.1 = false := by
    intro p hp
    obtain ⟨d, hd, rfl⟩ := List.mem_map.mp hp
    exact jsGet_eq_none_iff.mp (hfresh d hd)
  simp only [processChunk, chunkWrites_fresh t s chunk hfresh]
  rw [foldl_storeSet_of_disjoint _ s (nodupKeys_writes t chunk hnd) hdis]
  simp

theorem nodupIds_append {a b : List FsDoc} (h : nodupIds (a ++ b) = true) :
    nodupIds a = true ∧ nodupIds b = true ∧ (∀ x ∈ a, ∀ y ∈ b, y.id ≠ x.id) := by
  induction a with
  | nil => exact ⟨rfl, h, by simp⟩
  | cons d rest ih =>
      simp only [List.cons_append, nodupIds, Bool.and_eq_true, Bool.not_eq_true'] at h
      obtain ⟨h1, h2⟩ := h
      obtain ⟨ha, hb, hcross⟩ := ih h2
      have hall := List.any_eq_false.mp h1
      have h1r : (rest.any fun x => x.id == d.id) = false :=
        List.any_eq_false.mpr (fun x hx => hall x (List.mem_append_left _ hx))
      have h1b : (b.any fun x => x.id == d.id) = false :=
        List.any_eq_false.mpr (fun x hx => hall x (List.mem_append_right _ hx))
      refine ⟨?_, hb, ?_⟩
      · simp [nodupIds, h1r, ha]
      · intro x hx y hy
        rcases List.mem_cons.mp hx with rfl | hx2
        · have := List.any_eq_false.mp h1b y hy
          simpa using this
        · exact hcross x hx2 y hy

theorem batchWriteGo_fresh (t : Int) :
    ∀ (docs : List FsDoc) (s : Store) (acc : Nat),
      nodupIds docs = true → (∀ d ∈ docs, storeGet s d.id = none) →
      (batchWriteGo t s docs acc).2 = acc + docs.length ∧
      (∀ d ∈ docs, storeGet (batchWriteGo t s docs acc).1 d.id = some (jsWritten d.data t)) ∧
      (∀ id, (∀ d ∈ docs, d.id ≠ id) →
        storeGet (batchWriteGo t s docs acc).1 id = storeGet s id)
  | [], s, acc, _, _ => by simp [batchWriteGo]
  | d0 :: ds, s, acc, hnd, hfresh => by
      have hsplit : (d0 :: ds).take BATCH_SIZE ++ (d0 :: ds).drop BATCH_SIZE = d0 :: ds :=
        List.take_append_drop _ _
      obtain ⟨hndc, hndr, hcross⟩ :=
        nodupIds_append (a := (d0 :: ds).take BATCH_SIZE) (b := (d0 :: ds).drop BATCH_SIZE)
          (by rw [hsplit]; exact hnd)
      have hfreshc : ∀ d ∈ (d0 :: ds).take BATCH_SIZE, storeGet s d.id = none :=
        fun d hd => hfresh d (List.take_subset _ _ hd)
      have hpc := processChunk_fresh t s ((d0 :: ds).take BATCH_SIZE) hfreshc hndc
      have hstep : batchWriteGo t s (d0 :: ds) acc =
          batchWriteGo t (s ++ ((d0 :: ds).take BATCH_SIZE).map (fun d => (d.id, jsWritten d.data t)))
            ((d0 :: ds).drop BATCH_SIZE) (acc + ((d0 :: ds).take BATCH_SIZE).length) := by
        rw [batchWriteGo, hpc]
      have hkeyC : ∀ id, ((d0 :: ds).take BATCH_SIZE).all (fun d => !(d.id == id)) = true →
          storeGet (s ++ ((d0 :: ds).take BATCH_SIZE).map (fun d => (d.id, jsWritten d.data t))) id
            = storeGet s id := by
        intro id hid
        have hhk : hasKey (((d0 :: ds).take BATCH_SIZE).map (fun d => (d.id, jsWritten d.data t))) id = false := by
          rw [hasKey_writes]
          rw [List.all_eq_true] at hid
          apply List.any_eq_false.mpr
          intro x hx
          have := hid x hx
          simpa using this
        have hnone := jsGet_eq_none_iff.mpr hhk
        show jsGet (s ++ _) id = jsGet s id
        rw [jsGet_append, hnone]
      have hfreshr : ∀ e ∈ (d0 :: ds).drop BATCH_SIZE,
          storeGet (s ++ ((d0 :: ds).take BATCH_SIZE).map (fun d => (d.id, jsWritten d.data t))) e.id = none := by
        intro e he
        rw [hkeyC e.id (by
          rw [List.all_eq_true]
          intro x hx
          have := hcross x hx e he
          simpa using Ne.symm this)]
        exact hfresh e (List.drop_subset _ _ he)
      obtain ⟨ihcount, ihmem, ihother⟩ :=
        batchWriteGo_fresh t ((d0 :: ds).drop BATCH_SIZE)
          (s ++ ((d0 :: ds).take BATCH_SIZE).map (fun d => (d.id, jsWritten d.data t)))
          (acc + ((d0 :: ds).take BATCH_SIZE).length) hndr hfreshr
      refine ⟨?_, ?_, ?_⟩
      · rw [hstep, ihcount]
        have : ((d0 :: ds).take BATCH_SIZE).length + ((d0 :: ds).drop BATCH_SIZE).length
            = (d0 :: ds).length := by
          rw [← List.length_append, hsplit]
        omega
      · intro d hd
        rw [hstep]
        rcases List.mem_append.mp (by rw [hsplit]; exact hd :
            d ∈ (d0 :: ds).take BATCH_SIZE ++ (d0 :: ds).drop BATCH_SIZE) with hdc | hdr
        · rw [ihother d.id (by
            intro e he
            exact hcross d hdc e he)]
          show jsGet (s ++ _) d.id = _
          rw [jsGet_append]
          have hmem : (d.id, jsWritten d.data t) ∈
              ((d0 :: ds).take BATCH_SIZE).map (fun x => (x.id, jsWritten x.data t)) :=
            List.mem_map.mpr ⟨d, hdc, rfl⟩
          rw [jsGet_of_nodup_mem (nodupKeys_writes t _ hndc) hmem]
        · exact ihmem d hdr
      · intro id hid
        rw [hstep]
        rw [ihother id (fun e he => hid e (List.drop_subset _ _ he))]
        exact hkeyC id (by
          rw [List.all_eq_true]
          intro x hx
          have := hid x (List.take_subset _ _ hx)
          simpa using this)
termination_by docs _ _ _ _ => docs.length
decreasing_by simp [BATCH_SIZE]; omega

theorem batchWriteGo_unchanged (t : Int) :
    ∀ (docs : List FsDoc) (s : Store) (acc : Nat),
      (∀ d ∈ docs, shouldWriteDoc (storeGet s d.id) d.data = false) →
      batchWriteGo t s docs acc = (s, acc)
  | [], s, acc, _ => by simp [batchWriteGo]
  | d0 :: ds, s, acc, h => by
      have hwrites : chunkWrites t s ((d0 :: ds).take BATCH_SIZE) = [] := by
        unfold chunkWrites
        rw [zip_self_map, List.filterMap_map]
        apply List.filterMap_eq_nil_iff.mpr
        intro a ha
        simp [Function.comp, h a (List.take_subset _ _ ha)]
      have hchunk : processChunk t s ((d0 :: ds).take BATCH_SIZE) = (s, 0) := by
        simp [processChunk, hwrites]
      rw [batchWriteGo, hchunk]
      simpa using batchWriteGo_unchanged t ((d0 :: ds).drop BATCH_SIZE) s acc
        (fun d hd => h d (List.drop_subset _ _ hd))
termination_by docs _ _ _ => docs.length
decreasing_by simp [BATCH_SIZE]; omega

theorem shouldWriteDoc_written_false {data : JVal} (t : Int) (hg : goodPayload data = true) :
    shouldWriteDoc (some (jsWritten data t)) data = false := by
  cases data with
  | null => simp [goodPayload] at hg
  | undef => simp [goodPayload] at hg
  | bool b => simp [goodPayload] at hg
  | num n => simp [goodPayload] at hg
  | str s => simp [goodPayload] at hg
  | date u => simp [goodPayload] at hg
  | timestamp u => simp [goodPayload] at hg
  | arr l => simp [goodPayload] at hg
  | obj f =>
      simp only [goodPayload, Bool.and_eq_true, Bool.not_eq_true'] at hg
      have hplain : plainJson (.obj f) = true := hg.2
      have hnd : nodupKeys f = true := by
        have := hg.2
        simp only [plainJson, Bool.and_eq_true] at this
        exact this.1
      have hlu : hasKey f "lastUpdated" = false := hg.1
      have hset : setField f "lastUpdated" (JVal.timestamp t) = f ++ [("lastUpdated", JVal.timestamp t)] :=
        setField_eq_append_of_not_hasKey _ hlu
      have hgetlu : jsGet (f ++ [("lastUpdated", JVal.timestamp t)]) "lastUpdated" = some (.timestamp t) :=
        jsGet_append_single_same f _ _
      have hdel : deleteField (f ++ [("lastUpdated", JVal.timestamp t)]) "lastUpdated" = f := by
        rw [deleteField_append_single_same, deleteField_eq_self_of_not_hasKey hlu]
      simp only [shouldWriteDoc, jsWritten, jsSpread_obj_of_nodup hnd, hset,
        existingForCompare, hgetlu]
      simp [jsTruthy, hdel, deepEqual_clean_self hplain]

/-- C1: the change-aware durable writer is idempotent on identical content.
For any starting store, commit instants and list of records with distinct,
previously unused identities whose payloads are parsed JSON objects not
binding the reserved lastUpdated key: the first call reports every record
written and stores each payload together with a server-assigned lastUpdated
timestamp, and a second call with the same records reports zero records
written, even though the stored copies differ from the incoming payloads in
the lastUpdated write-metadata field, because that field is stripped from
the stored copy before the normalized comparison. -/
theorem batchWrite_second_call_reports_zero
    (t1 t2 : Int) (store : Store) (docs : List FsDoc)
    (hgood : ∀ d ∈ docs, goodPayload d.data = true)
    (hids : nodupIds docs = true)
    (hfresh : ∀ d ∈ docs, storeGet store d.id = none) :
    (batchWriteToFirestore t1 store docs).2 = docs.length ∧
    (∀ d ∈ docs, storeGet (batchWriteToFirestore t1 store docs).1 d.id
      = some (jsWritten d.data t1)) ∧
    (batchWriteToFirestore t2 (batchWriteToFirestore t1 store docs).1 docs).2 = 0 := by
  obtain ⟨hcount, hmem, _⟩ := batchWriteGo_fresh t1 docs store 0 hids hfresh
  refine ⟨by simpa [batchWriteToFirestore] using hcount, by simpa [batchWriteToFirestore] using hmem, ?_⟩
  have hsw : ∀ d ∈ docs,
      shouldWriteDoc (storeGet (batchWriteToFirestore t1 store docs).1 d.id) d.data = false := by
    intro d hd
    have := hmem d hd
    simp only [batchWriteToFirestore] at this ⊢
    rw [this]
    exact shouldWriteDoc_written_false t1 (hgood d hd)
  have := batchWriteGo_unchanged t2 docs (batchWriteToFirestore t1 store docs).1 0 hsw
  simp only [batchWriteToFirestore] at this ⊢
  rw [this]

/-- Witness for C1 at a concrete store and two concrete records. -/
theorem batchWrite_second_call_reports_zero_witness :
    (batchWriteToFirestore 3 []
      [⟨"a", .obj [("x", .num 1)]⟩, ⟨"b", .obj [("y", .null)]⟩]).2 = 2 ∧
    (∀ d ∈ ([⟨"a", .obj [("x", .num 1)]⟩, ⟨"b", .obj [("y", .null)]⟩] : List FsDoc),
      storeGet (batchWriteToFirestore 3 []
        [⟨"a", .obj [("x", .num 1)]⟩, ⟨"b", .obj [("y", .null)]⟩]).1 d.id
        = some (jsWritten d.data 3)) ∧
    (batchWriteToFirestore 9
      (batchWriteToFirestore 3 []
        [⟨"a", .obj [("x", .num 1)]⟩, ⟨"b", .obj [("y", .null)]⟩]).1
      [⟨"a", .obj [("x", .num 1)]⟩, ⟨"b", .obj [("y", .null)]⟩]).2 = 0 :=
  batchWrite_second_call_reports_zero 3 9 []
    [⟨"a", .obj [("x", .num 1)]⟩, ⟨"b", .obj [("y", .null)]⟩]
    (by decide) (by decide) (by intro d _; rfl)

theorem nodupKeys_iff_nodup_map {f : List (String × JVal)} :
    nodupKeys f = true ↔ (f.map Prod.fst).Nodup := by
  induction f with
  | nil => simp [nodupKeys]
  | cons p rest ih =>
      obtain ⟨k, v⟩ := p
      simp only [nodupKeys, Bool.and_eq_true, Bool.not_eq_true', List.map_cons, List.nodup_cons, ih]
      constructor
      · rintro ⟨h1, h2⟩
        refine ⟨?_, h2⟩
        intro hk
        obtain ⟨q, hq, he⟩ := List.mem_map.mp hk
        have := hasKey_eq_false_iff.mp h1 q hq
        exact this he
      · rintro ⟨h1, h2⟩
        refine ⟨?_, h2⟩
        apply hasKey_eq_false_iff.mpr
        intro q hq he
        exact h1 (List.mem_map.mpr ⟨q, hq, he⟩)

theorem plainJsonFields_iff {f : List (String × JVal)} :
    plainJsonFields f = true ↔ ∀ p ∈ f, plainJson p.2 = true := by
  induction f with
  | nil => simp [plainJsonFields]
  | cons p rest ih =>
      obtain ⟨k, v⟩ := p
      simp [plainJsonFields, ih]

/-- C8 (amended): the deepEqual helper itself identifies null with
undefined, compares objects by key set and per-key equality regardless of
key order, compares arrays elementwise and order-sensitively, and compares
Date and Timestamp values by their underlying instant.  However, the
writer pipeline cleans both sides with a JSON round trip before the
comparison, which turns a stored Timestamp into a plain object of counter
fields and an incoming Date into an ISO string, so the writer decision for
a stored timestamp against an incoming date denoting the same instant is
to write the record, not to skip it. -/
theorem deepEqual_normalization_spec :
    (deepEqual .null .undef = true ∧ deepEqual .undef .null = true) ∧
    (∀ f1 f2 : List (String × JVal), plainJson (.obj f1) = true → f2.Perm f1 →
      deepEqual (.obj f1) (.obj f2) = true) ∧
    (deepEqual (.arr [.num 1, .num 2]) (.arr [.num 1, .num 2]) = true ∧
     deepEqual (.arr [.num 1, .num 2]) (.arr [.num 2, .num 1]) = false) ∧
    (∀ t u : Int, deepEqual (.timestamp t) (.date u) = (t == u) ∧
      deepEqual (.date t) (.timestamp u) = (t == u) ∧
      deepEqual (.date t) (.date u) = (t == u)) ∧
    (∀ t : Int,
      shouldWriteDoc (some (.obj [("at", .timestamp t), ("lastUpdated", .timestamp 1)]))
        (.obj [("at", .date t)]) = true) := by
  refine ⟨⟨rfl, rfl⟩, ?_, ⟨by decide, by decide⟩, ?_, ?_⟩
  · intro f1 f2 hplain hperm
    simp only [plainJson, Bool.and_eq_true] at hplain
    have hnd2 : nodupKeys f2 = true := by
      rw [nodupKeys_iff_nodup_map]
      exact ((hperm.map Prod.fst).nodup_iff).mpr (nodupKeys_iff_nodup_map.mp hplain.1)
    have hget : ∀ p ∈ f1, jsGet f2 p.1 = some p.2 := by
      intro p hp
      exact jsGet_of_nodup_mem hnd2 (by simpa using hperm.mem_iff.mpr hp)
    simp [deepEqual, hperm.length_eq, deepEqualFields_refl f1 f2 hplain.2 hget]
  · intro t u
    exact ⟨by simp [deepEqual], by simp [deepEqual], by simp [deepEqual]⟩
  · intro t
    simp [shouldWriteDoc, existingForCompare, jsGet, jsTruthy, deleteField,
      cleanForComparison, isNullish, jsonRT, jsonRTFields, deepEqual, deepEqualFields, tsFields]

/-- C8 counterexample to the claim as stated: a stored timestamp and an
incoming date denote the same instant and deepEqual itself calls them
equal, yet the writer does not skip the record: it reports one write,
because the JSON round trip performed before the comparison separates the
two representations. -/
theorem batchWriteGo_singleton (t : Int) (s : Store) (d : FsDoc) (acc : Nat) :
    batchWriteGo t s [d] acc = ((processChunk t s [d]).1, acc + (processChunk t s [d]).2) := by
  rw [batchWriteGo]
  have h1 : [d].take BATCH_SIZE = [d] := List.take_of_length_le (by simp [BATCH_SIZE])
  have h2 : [d].drop BATCH_SIZE = ([] : List FsDoc) := List.drop_eq_nil_of_le (by simp [BATCH_SIZE])
  rw [h1, h2, batchWriteGo]

theorem deepEqual_timestamp_date_counterexample :
    deepEqual (.timestamp 1000) (.date 1000) = true ∧
    (batchWriteToFirestore 7
      [("d", .obj [("at", .timestamp 1000), ("lastUpdated", .timestamp 1)])]
      [⟨"d", .obj [("at", .date 1000)]⟩]).2 = 1 := by
  refine ⟨by decide, ?_⟩
  rw [batchWriteToFirestore, batchWriteGo_singleton]
  show 0 + (processChunk 7 _ _).2 = 1
  decide

/-- Witness for C8 at two concrete objects with reordered keys. -/
theorem deepEqual_normalization_spec_witness :
    deepEqual (.obj [("a", .num 1), ("b", .null)]) (.obj [("b", .null), ("a", .num 1)]) = true :=
  deepEqual_normalization_spec.2.1 [("a", JVal.num 1), ("b", JVal.null)]
    [("b", JVal.null), ("a", JVal.num 1)]
    (by decide) (List.Perm.swap ("a", JVal.num 1) ("b", JVal.null) [])

/-- Page size fixed at the provider maximum, as in the pagination handler. -/
def perPage : Nat := 250

/-- Extraction of the records of one page response, as in fetchAllPages:
the body is response.data when that is truthy and the response itself
otherwise; a bare array is taken whole with more pages exactly when it is
full; a wrapped object with an array data field is unwrapped the same way;
any other shape is treated as a single record and pagination stops. -/
def pageItems (resp : JVal) : List JVal × Bool :=
  let data := if jsTruthy (jsField resp "data") then jsField resp "data" else resp
  match data with
  | .arr l => (l, l.length == perPage)
  | d =>
      match jsField d "data" with
      | .arr l2 => (l2, l2.length == perPage)
      | _ => ([d], false)

/-- Loop of fetchAllPages.  The page counter starts at 1 and the loop stops
either when a page is not full or when the incremented page counter passes
the absolute ceiling of 1000 (a logged safety stop in the source, not an
error).  The fuel argument is the structural form of that ceiling: the
caller passes fuel 1000 so that fuel plus page stays 1001, which makes the
fuel-zero branch unreachable; the ceiling test itself is on the page
counter, exactly as in the source. -/
def fetchAllPagesGo (fetchFunction : Nat → JVal) :
    Nat → Nat → List JVal → Nat → List JVal × Nat
  | 0, _, acc, calls => (acc, calls)
  | fuel + 1, page, acc, calls =>
      let r := pageItems (fetchFunction page)
      let acc2 := acc ++ r.1
      let calls2 := calls + 1
      let page2 := page + 1
      if 1000 < page2 then (acc2, calls2)
      else if r.2 then fetchAllPagesGo fetchFunction fuel page2 acc2 calls2
      else (acc2, calls2)

/-- Embedding of fetchAllPages from the pagination handler: drives the
fetch function from page 1, accumulating records in page order, and also
reports the number of page calls made. -/
def fetchAllPages (fetchFunction : Nat → JVal) : List JVal × Nat :=
  fetchAllPagesGo fetchFunction 1000 1 [] 0

/-- A fetch function answering pages of sizes 250, 250 and 137, with the
records of each page tagged by the page number. -/
def pages637 : Nat → JVal := fun p =>
  if p ≤ 2 then .arr (List.replicate 250 (JVal.num p))
  else .arr (List.replicate 137 (JVal.num 3))

/-- A fetch function answering a full page of 250 records indefinitely. -/
def pagesCeil : Nat → JVal := fun _ => .arr (List.replicate 250 (JVal.num 0))

theorem fetchAllPagesGo_const (fetch : Nat → JVal)
    (h : ∀ p, (pageItems (fetch p)).1.length = 250 ∧ (pageItems (fetch p)).2 = true) :
    ∀ (fuel page : Nat) (acc : List JVal) (calls : Nat),
      fuel + page = 1001 →
      (fetchAllPagesGo fetch fuel page acc calls).1.length = acc.length + 250 * fuel ∧
      (fetchAllPagesGo fetch fuel page acc calls).2 = calls + fuel := by
  intro fuel
  induction fuel with
  | zero =>
      intro page acc calls _
      simp [fetchAllPagesGo]
  | succ fuel ih =>
      intro page acc calls hpage
      by_cases hc : 1000 < page + 1
      · have hf : fuel = 0 := by omega
        subst hf
        simp [fetchAllPagesGo, hc, List.length_append, (h page).1]
      · simp only [fetchAllPagesGo, if_neg hc, (h page).2, if_true]
        have hrec := ih (page + 1) (acc ++ (pageItems (fetch page)).1) (calls + 1) (by omega)
        refine ⟨?_, ?_⟩
        · rw [hrec.1]
          simp only [List.length_append, (h page).1]
          ring
        · rw [hrec.2]
          omega

/-- C5: the paginated collector requests pages of 250 and concatenates
them in page order.  A fetch function answering pages of sizes 250, 250
and 137 yields the 637 records of the three pages in order after exactly 3
page calls; a fetch function answering full pages indefinitely stops at
the 1000-page ceiling with 250000 records after exactly 1000 page calls,
without raising an error. -/
theorem fetchAllPages_pagination :
    ((fetchAllPages pages637).1 =
        List.replicate 250 (JVal.num 1) ++ List.replicate 250 (JVal.num 2) ++
          List.replicate 137 (JVal.num 3) ∧
      (fetchAllPages pages637).2 = 3) ∧
    ((fetchAllPages pagesCeil).1.length = 250000 ∧ (fetchAllPages pagesCeil).2 = 1000) := by
  refine ⟨⟨?_, ?_⟩, ?_⟩
  · rfl
  · rfl
  · have h : ∀ p, (pageItems (pagesCeil p)).1.length = 250 ∧ (pageItems (pagesCeil p)).2 = true := by
      intro p
      constructor <;> simp [pagesCeil, pageItems, perPage, jsField, jsTruthy]
    have hmain := fetchAllPagesGo_const pagesCeil h 1000 1 [] 0 (by omega)
    exact ⟨by simpa using hmain.1, by simpa using hmain.2⟩

/-- Embedding of getNextApiKey from the rate limiter module: the
module-level rotation cursor is passed in and the advanced cursor is
returned with the key.  A missing or empty key array throws; a cursor that
is out of bounds because the key list shrank since the previous call is
reset to zero before indexing. -/
def getNextApiKey (apiKeys : Option (List String)) (currentKeyIndex : Nat) :
    Except String (String × Nat) :=
  match apiKeys with
  | none => .error "No API keys available"
  | some keys =>
      if keys.length = 0 then .error "No API keys available"
      else
        let i := if currentKeyIndex ≥ keys.length then 0 else currentKeyIndex
        .ok (keys.getD i "", (i + 1) % keys.length)

/-- A run of consecutive acquisitions against a fixed eligible key list,
threading the rotation cursor through the calls. -/
def acquireKeys (keys : List String) : Nat → Nat → List String
  | _, 0 => []
  | idx, n + 1 =>
      match getNextApiKey (some keys) idx with
      | .ok (k, idx2) => k :: acquireKeys keys idx2 n
      | .error _ => []

theorem acquireKeys_eq_take (keys : List String) :
    ∀ (n i : Nat), i < keys.length → n ≤ keys.length →
      acquireKeys keys i n = (keys.drop i ++ keys.take i).take n := by
  intro n
  induction n with
  | zero => intro i _ _; simp [acquireKeys]
  | succ n ih =>
      intro i hi hn
      have hlen0 : ¬ keys.length = 0 := by omega
      have hnr : ¬ i ≥ keys.length := by omega
      have hgk : getNextApiKey (some keys) i = .ok (keys.getD i "", (i + 1) % keys.length) := by
        simp [getNextApiKey, hlen0, hnr]
      have hget : keys.getD i "" = keys[i] := List.getD_eq_getElem keys "" hi
      have hdrop : keys.drop i = keys[i] :: keys.drop (i + 1) :=
        List.drop_eq_getElem_cons hi
      rw [hdrop]
      simp only [acquireKeys, hgk, hget, List.cons_append, List.take_succ_cons]
      by_cases hsplit : i + 1 < keys.length
      · rw [Nat.mod_eq_of_lt hsplit]
        congr 1
        rw [ih (i + 1) hsplit (by omega)]
        have hx : keys[i]?.toList = [keys[i]] := by rw [List.getElem?_eq_getElem hi]; rfl
        rw [List.take_succ, hx, ← List.append_assoc,
          List.take_append_of_le_length (by
            simp only [List.length_append, List.length_drop, List.length_take]
            rw [Nat.min_eq_left hi.le]
            omega)]
      · have hieq : i + 1 = keys.length := by omega
        rw [hieq, Nat.mod_self, ih 0 (by omega) (by omega)]
        simp only [List.drop_zero, List.take_zero, List.append_nil, List.nil_append]
        rw [List.drop_length]
        simp only [List.nil_append, List.take_take]
        congr 2
        exact (Nat.min_eq_left (by omega : n ≤ i)).symm

/-- C6: with a fixed list of N eligible keys and no failures in between, N
consecutive acquisitions return the rotation of the key list starting at
the in-bounds rotation cursor (an out-of-bounds cursor reads as zero), so
with distinct keys each key is returned exactly once, in the fixed cyclic
order determined by the cursor. -/
theorem acquireKeys_cycle (keys : List String) (i : Nat) (h : keys ≠ []) :
    acquireKeys keys i keys.length =
      keys.drop (if i < keys.length then i else 0) ++
        keys.take (if i < keys.length then i else 0) ∧
    (keys.Nodup → ∀ k ∈ keys, (acquireKeys keys i keys.length).count k = 1) := by
  have hlen : 0 < keys.length := List.length_pos.mpr h
  have hi0lt : (if i < keys.length then i else 0) < keys.length := by
    by_cases hc : i < keys.length <;> simp [hc, hlen]
  have hfirst : acquireKeys keys i keys.length =
      acquireKeys keys (if i < keys.length then i else 0) keys.length := by
    by_cases hc : i < keys.length
    · simp [hc]
    · rw [if_neg hc]
      have hg : getNextApiKey (some keys) i = getNextApiKey (some keys) 0 := by
        have h1 : i ≥ keys.length := by omega
        have h2 : ¬ (0 ≥ keys.length) := by omega
        simp [getNextApiKey, h1, h2]
      obtain ⟨m, hm⟩ : ∃ m, keys.length = m + 1 := ⟨keys.length - 1, by omega⟩
      rw [hm]
      simp only [acquireKeys, hg]
  rw [hfirst]
  have hmain := acquireKeys_eq_take keys keys.length (if i < keys.length then i else 0) hi0lt
    (le_refl _)
  have hlenapp : (keys.drop (if i < keys.length then i else 0) ++
      keys.take (if i < keys.length then i else 0)).length = keys.length := by
    simp
    omega
  have htake : (keys.drop (if i < keys.length then i else 0) ++
      keys.take (if i < keys.length then i else 0)).take keys.length =
      keys.drop (if i < keys.length then i else 0) ++
        keys.take (if i < keys.length then i else 0) :=
    List.take_of_length_le (by rw [hlenapp])
  refine ⟨by rw [hmain, htake], ?_⟩
  intro hnd k hk
  rw [hmain, htake]
  have hperm : (keys.drop (if i < keys.length then i else 0) ++
      keys.take (if i < keys.length then i else 0)).Perm keys := by
    refine List.perm_append_comm.trans ?_
    rw [List.take_append_drop]
  rw [hperm.count_eq]
  exact List.count_eq_one_of_mem hnd hk

/-- Witness for C6 with three distinct keys and the cursor at 1. -/
theorem acquireKeys_cycle_witness :
    acquireKeys ["a", "b", "c"] 1 3 = ["b", "c", "a"] ∧
    ∀ k ∈ (["a", "b", "c"] : List String), (acquireKeys ["a", "b", "c"] 1 3).count k = 1 := by
  have h := acquireKeys_cycle ["a", "b", "c"] 1 (by decide)
  constructor
  · simpa using h.1
  · intro k hk
    simpa using h.2 (by decide) k hk

/-- C9: getNextApiKey returns an element of a non-empty key array and an
advanced cursor kept within bounds even when the array is shorter than on
the previous call, and it throws exactly when the array is missing or
empty. -/
theorem getNextApiKey_safety :
    (∀ (keys : List String) (idx : Nat), keys ≠ [] →
      ∃ k j, getNextApiKey (some keys) idx = .ok (k, j) ∧ k ∈ keys ∧ j < keys.length) ∧
    (∀ idx : Nat, getNextApiKey none idx = .error "No API keys available") ∧
    (∀ idx : Nat, getNextApiKey (some []) idx = .error "No API keys available") := by
  refine ⟨?_, fun _ => rfl, fun _ => rfl⟩
  intro keys idx h
  have hlen : 0 < keys.length := List.length_pos.mpr h
  have hi : (if idx ≥ keys.length then 0 else idx) < keys.length := by
    by_cases hc : idx ≥ keys.length <;> simp [hc, hlen]
    omega
  refine ⟨keys.getD (if idx ≥ keys.length then 0 else idx) "",
    ((if idx ≥ keys.length then 0 else idx) + 1) % keys.length, ?_, ?_, ?_⟩
  · simp [getNextApiKey, Nat.pos_iff_ne_zero.mp hlen]
  · rw [List.getD_eq_getElem keys "" hi]
    exact List.getElem_mem _
  · exact Nat.mod_lt _ hlen

/-- Witness for C9 with a two-key array and an out-of-bounds cursor. -/
theorem getNextApiKey_safety_witness :
    ∃ k j, getNextApiKey (some ["k1", "k2"]) 7 = .ok (k, j) ∧
      k ∈ (["k1", "k2"] : List String) ∧ j < (["k1", "k2"] : List String).length :=
  getNextApiKey_safety.1 ["k1", "k2"] 7 (by decide)

/-- Outcome of one HTTP request: success, or a status error (non-2xx);
network errors and timeouts behave like an unrecognized status in the
clients below, namely they are rethrown unchanged. -/
inductive HttpOutcome where
  | success : HttpOutcome
  | status : Nat → HttpOutcome
deriving DecidableEq

/-- The rate-limited-keys map of the api client: key to cooldown expiry. -/
abbrev CooldownMap := List (String × Int)

/-- Map lookup, last binding winning. -/
def cdGet : CooldownMap → String → Option Int
  | [], _ => none
  | p :: rest, k =>
      match cdGet rest k with
      | some v => some v
      | none => if p.1 = k then some p.2 else none

/-- Map update in place. -/
def cdSet : CooldownMap → String → Int → CooldownMap
  | [], k, v => [(k, v)]
  | p :: rest, k, v => if p.1 = k then (k, v) :: rest else p :: cdSet rest k v

/-- Result of one loop iteration: the call finishes (with a response or a
thrown error) or continues with a new loop state. -/
inductive StepRes (σ : Type) where
  | done (r : Except String Unit)
  | next (s : σ)

/-- Result of running a bounded number of loop iterations. -/
inductive RunRes (σ : Type) where
  | finished (r : Except String Unit)
  | running (s : σ)

namespace apiCooldown

/-- Loop state of the cooldown-aware apiGet: the wall clock, the module
blacklist, the cooldown map, the rotation cursor of the rate limiter, the
auth retry counter, the retry counter (declared and reset by the source
but never incremented), and the count of requests issued so far, which
indexes the transport oracle. -/
structure St where
  now : Int
  blacklisted : List String
  rateLimited : CooldownMap
  rotIdx : Nat
  authRetryCount : Nat
  retryCount : Nat
  reqCount : Nat
deriving DecidableEq

/-- The eligible keys of one iteration: not blacklisted, and not inside an
active cooldown window (a truthy expiry strictly after now). -/
def availableKeys (allApiKeys : List String) (s : St) : List String :=
  allApiKeys.filter fun k =>
    !(s.blacklisted.contains k) &&
      (match cdGet s.rateLimited k with
       | some c => !(c != 0 && decide (s.now < c))
       | none => true)

/-- The wait applied when no key is eligible: sleep until the soonest
pending cooldown expiry, five seconds from now when no cooldown is pending
(for instance when every key is blacklisted), clamped between one second
and thirty seconds. -/
def waitTime (allApiKeys : List String) (s : St) : Int :=
  let cooldowns := (allApiKeys.filterMap (cdGet s.rateLimited)).filter
    (fun c => c != 0 && decide (s.now < c))
  let nextAvailableAt :=
    match cooldowns.min? with
    | some m => m
    | none => s.now + 5000
  max 1000 (min (nextAvailableAt - s.now) 30000)

/-- One iteration of the retry loop of the cooldown-aware apiGet.  With no
eligible key the loop sleeps the computed wait and retries, and nothing
else changes: in particular retryCount, which the source resets on success
but never increments, stays put, so no consecutive-waits bail-out can ever
fire.  Otherwise the rate limiter of this client (the variant without the
bounds reset) picks the key at the rotation cursor, and the request
outcome is handled: success returns after the pacing sleep, 401
blacklists the key and fails fatally once the auth retry count exceeds the
total number of configured keys, 429 puts the key on a fixed sixty-second
cooldown (plus a two-second sleep when at most one key was eligible) and
rotates, and any other error is rethrown. -/
def step (allApiKeys : List String) (http : Nat → HttpOutcome) (s : St) : StepRes St :=
  let avail := availableKeys allApiKeys s
  if avail.isEmpty then
    .next { s with now := s.now + waitTime allApiKeys s }
  else
    let key := avail.getD s.rotIdx ""
    let rotIdx2 := (s.rotIdx + 1) % avail.length
    match http s.reqCount with
    | .success => .done (.ok ())
    | .status 401 =>
        let bl := if s.blacklisted.contains key then s.blacklisted else s.blacklisted ++ [key]
        let arc := s.authRetryCount + 1
        if allApiKeys.length < arc then
          .done (.error "All provided RobotEvents API keys are failing with 401 Unauthorized.")
        else
          .next { s with blacklisted := bl, authRetryCount := arc, rotIdx := rotIdx2,
                         reqCount := s.reqCount + 1 }
    | .status 429 =>
        let rl := cdSet s.rateLimited key (s.now + 60000)
        let now2 := if avail.length ≤ 1 then s.now + 2000 else s.now
        .next { s with rateLimited := rl, now := now2, rotIdx := rotIdx2,
                       reqCount := s.reqCount + 1 }
    | .status c => .done (.error ("HTTP error " ++ toString c))

/-- Runs up to fuel iterations of the loop. -/
def run (allApiKeys : List String) (http : Nat → HttpOutcome) : Nat → St → RunRes St
  | 0, s => .running s
  | n + 1, s =>
      match step allApiKeys http s with
      | .done r => .finished r
      | .next s2 => run allApiKeys http n s2

end apiCooldown

namespace apiSimple

/-- Loop state of the simpler apiGet variant, with the same components;
here retryCount counts the consecutive all-keys-unavailable waits. -/
structure St where
  now : Int
  blacklisted : List String
  rateLimited : CooldownMap
  rotIdx : Nat
  authRetryCount : Nat
  retryCount : Nat
  reqCount : Nat
deriving DecidableEq

/-- The eligible keys: same filter as the cooldown-aware client. -/
def availableKeys (allApiKeys : List String) (s : St) : List String :=
  allApiKeys.filter fun k =>
    !(s.blacklisted.contains k) &&
      (match cdGet s.rateLimited k with
       | some c => !(c != 0 && decide (s.now < c))
       | none => true)

/-- One iteration of the retry loop of the simpler apiGet: with no
eligible key it sleeps a fixed five seconds, increments the wait counter,
and fails fatally once more than ten consecutive waits have happened;
otherwise a 401 blacklists the key (fatal past the key count), a 429 puts
the key on an exponential cooldown of two to the retry count times two
seconds and increments the retry count, success returns, and any other
error is rethrown. -/
def step (allApiKeys : List String) (http : Nat → HttpOutcome) (s : St) : StepRes St :=
  let avail := availableKeys allApiKeys s
  if avail.isEmpty then
    let rc := s.retryCount + 1
    if 10 < rc then
      .done (.error "RobotEvents API sync stopped: All keys are persistently rate-limited or invalid.")
    else
      .next { s with now := s.now + 5000, retryCount := rc }
  else
    let key := avail.getD s.rotIdx ""
    let rotIdx2 := (s.rotIdx + 1) % avail.length
    match http s.reqCount with
    | .success => .done (.ok ())
    | .status 401 =>
        let bl := if s.blacklisted.contains key then s.blacklisted else s.blacklisted ++ [key]
        let arc := s.authRetryCount + 1
        if allApiKeys.length < arc then
          .done (.error "Failed to find a working API key after checking all available keys.")
        else
          .next { s with blacklisted := bl, authRetryCount := arc, rotIdx := rotIdx2,
                         reqCount := s.reqCount + 1 }
    | .status 429 =>
        let rl := cdSet s.rateLimited key (s.now + 2 ^ s.retryCount * 2000)
        .next { s with rateLimited := rl, retryCount := s.retryCount + 1, rotIdx := rotIdx2,
                       reqCount := s.reqCount + 1 }
    | .status c => .done (.error ("HTTP error " ++ toString c))

/-- Runs up to fuel iterations of the loop. -/
def run (allApiKeys : List String) (http : Nat → HttpOutcome) : Nat → St → RunRes St
  | 0, s => .running s
  | n + 1, s =>
      match step allApiKeys http s with
      | .done r => .finished r
      | .next s2 => run allApiKeys http n s2

end apiSimple

/-- The four configured keys of the starvation scenario. -/
def allKeys0 : List String := ["k1", "k2", "k3", "k4"]

/-- A transport oracle answering 401 Unauthorized to every request. -/
def http401 : Nat → HttpOutcome := fun _ => .status 401

/-- The loop state reached after each of the four keys has answered 401
once and been blacklisted: no key is eligible and no cooldown is pending. -/
def starved (now : Int) : apiCooldown.St :=
  { now := now, blacklisted := allKeys0, rateLimited := [], rotIdx := 0,
    authRetryCount := 4, retryCount := 0, reqCount := 4 }

/-- The corresponding state of the simpler client. -/
def starvedSimple (now : Int) : apiSimple.St :=
  { now := now, blacklisted := allKeys0, rateLimited := [], rotIdx := 0,
    authRetryCount := 4, retryCount := 0, reqCount := 4 }

theorem apiCooldown_step_starved (now : Int) :
    apiCooldown.step allKeys0 http401 (starved now) = .next (starved (now + 5000)) := by
  have havail : apiCooldown.availableKeys allKeys0 (starved now) = [] := by
    simp [apiCooldown.availableKeys, allKeys0, starved, cdGet]
  have hwait : apiCooldown.waitTime allKeys0 (starved now) = 5000 := by
    simp [apiCooldown.waitTime, allKeys0, starved, cdGet]
  rw [apiCooldown.step, havail, hwait]
  rfl

theorem apiCooldown_run_starved :
    ∀ (n : Nat) (now : Int),
      apiCooldown.run allKeys0 http401 n (starved now) = .running (starved (now + 5000 * n)) := by
  intro n
  induction n with
  | zero => intro now; simp [apiCooldown.run, starved]
  | succ n ih =>
      intro now
      have hred : apiCooldown.run allKeys0 http401 (n + 1) (starved now) =
          apiCooldown.run allKeys0 http401 n (starved (now + 5000)) := by
        rw [apiCooldown.run, apiCooldown_step_starved]
      rw [hred, ih]
      congr 1
      simp only [starved, apiCooldown.St.mk.injEq, and_true, true_and]
      push_cast
      ring

/-- C3 (as a record of the code defect): when no key is eligible, the
cooldown-aware apiGet does sleep a bounded wait, between one and thirty
seconds and tracking the soonest cooldown expiry, and retries.  But its
consecutive-waits counter is reset on success and never incremented, so
the fatal bail-out can never fire: from the state where all four keys are
blacklisted after one 401 each, any number of iterations leaves the call
still waiting, five seconds at a time, and it never fails.  The earlier
client variant behaves as the claim says: from the same state it fails
fatally on the eleventh consecutive wait. -/
theorem apiGet_starvation_never_fails_fatally :
    (∀ (allApiKeys : List String) (s : apiCooldown.St),
      1000 ≤ apiCooldown.waitTime allApiKeys s ∧ apiCooldown.waitTime allApiKeys s ≤ 30000) ∧
    (∀ n : Nat, apiCooldown.run allKeys0 http401 n (starved 0) =
      .running (starved (5000 * n))) ∧
    (apiSimple.run allKeys0 http401 11 (starvedSimple 0) =
      .finished (.error
        "RobotEvents API sync stopped: All keys are persistently rate-limited or invalid.")) := by
  refine ⟨?_, ?_, ?_⟩
  · intro allApiKeys s
    unfold apiCooldown.waitTime
    constructor
    · exact le_max_left _ _
    · exact max_le (by norm_num) (min_le_right _ _)
  · intro n
    have := apiCooldown_run_starved n 0
    simpa using this
  · rfl

mutual

/-- String conversion of a JS value as the String wrapper and template
literals produce it, for the shapes that occur in identity derivation.
The locale-dependent rendering of a Date (which never reaches an identity)
is approximated by its ISO instant string. -/
def jsToString : JVal → String
  | .null => "null"
  | .undef => "undefined"
  | .bool b => if b then "true" else "false"
  | .num n => toString n
  | .str s => s
  | .date t => isoOfMs t
  | .timestamp _ => "[object Object]"
  | .arr l => jsToStringElems l
  | .obj _ => "[object Object]"
termination_by v => (sizeOf v, 0)

/-- Array toString: elements joined by commas, nullish elements empty. -/
def jsToStringElems : List JVal → String
  | [] => ""
  | [v] => jsToStringElem v
  | v :: rest => jsToStringElem v ++ "," ++ jsToStringElems rest
termination_by l => (sizeOf l, 2)

/-- One element of an array in toString position. -/
def jsToStringElem : JVal → String
  | .null => ""
  | .undef => ""
  | v => jsToString v
termination_by v => (sizeOf v, 1)

end

/-- Logical or of JS: the first operand when truthy, else the second. -/
def jsOr (a b : JVal) : JVal :=
  if jsTruthy a then a else b

/-- Identity of a ranking or finalist-ranking record in the orchestrator:
String of r.id when truthy, else the template of team_ followed by
r.team?.id when truthy else r.team. -/
def rankingDocId (r : JVal) : String :=
  let idv := jsField r "id"
  if jsTruthy idv then jsToString idv
  else "team_" ++ jsToString (jsOr (jsField (jsField r "team") "id") (jsField r "team"))

/-- Identity of a match record: String of m.id when truthy else m.matchnum. -/
def matchDocId (m : JVal) : String :=
  jsToString (jsOr (jsField m "id") (jsField m "matchnum"))

/-- Identity of a team record: String of t.id when truthy else t.number. -/
def teamDocId (t : JVal) : String :=
  jsToString (jsOr (jsField t "id") (jsField t "number"))

/-- Identity of a skill record: String of s.id when truthy, else the
template of s.team?.id, an underscore and s.type. -/
def skillDocId (s : JVal) : String :=
  let idv := jsField s "id"
  if jsTruthy idv then jsToString idv
  else jsToString (jsField (jsField s "team") "id") ++ "_" ++ jsToString (jsField s "type")

/-- Identity of an event: String of event.id when truthy else event.sku. -/
def eventIdOf (e : JVal) : String :=
  jsToString (jsOr (jsField e "id") (jsField e "sku"))

/-- Identity of a division record: String of d.id. -/
def divIdOf (d : JVal) : String :=
  jsToString (jsField d "id")

/-- Embedding of extractDivisions from the event-details scraper: a falsy
details value or a falsy divisions field gives the empty list; an array
divisions field is mapped to objects of id, name and order.  A truthy
non-array divisions field would throw at the map call in JS; the oracle
values of this model are assumed well typed, so that shape also maps to
the empty list here. -/
def extractDivisions (eventDetails : JVal) : List JVal :=
  if !(jsTruthy eventDetails) then []
  else
    match jsField eventDetails "divisions" with
    | .arr l => l.map (fun div =>
        .obj [("id", jsField div "id"), ("name", jsField div "name"),
              ("order", jsField div "order")])
    | _ => []

/-- Milliseconds of a date-valued field: the API serves date strings,
modeled here already parsed to their epoch-millisecond value; a falsy
field reads as absent. -/
def fieldDateMs (e : JVal) (k : String) : Option Int :=
  let v := jsField e k
  if jsTruthy v then
    match v with
    | .num t => some t
    | .date t => some t
    | _ => none
  else none

/-- The live-mode pre-filter of the orchestrator: an event is live when
the current day string lies between the day strings of its start and end
dates (missing dates read as empty strings, as in the source). -/
def liveFilter (today : String) (e : JVal) : Bool :=
  let s := match fieldDateMs e "start" with | some t => isoDateOfMs t | none => ""
  let en := match fieldDateMs e "end" with | some t => isoDateOfMs t | none => ""
  decide (s ≤ today) && decide (today ≤ en)

/-- Whether the event ended more than twenty-four hours before now. -/
def isPastEvent (now : Int) (e : JVal) : Bool :=
  match fieldDateMs e "end" with
  | some t => decide (86400000 < now - t)
  | none => false

/-- Operating mode of one sync invocation. -/
inductive Mode where
  | full
  | new
  | live
deriving DecidableEq

/-- Oracles for the external collaborators of one sync run: the season
event listing, the wall clock, the database reads used by the skip logic
(whether the event document exists, whether those reads succeed, whether
the division-1 match sample is non-empty, and the identity of the first
sampled division-1 finalist-ranking document used by the earlier
orchestrator variant), and the per-event scrapers, each able to fail with
a thrown error message.  Store writes are modeled as always succeeding. -/
structure SyncEnv where
  events : Except String (List JVal)
  now : Int
  eventExists : String → Bool
  skipCheckOk : String → Bool
  matchSample : String → Bool
  finSample : String → Option String
  details : String → Except String JVal
  rankings : String → String → Except String (List JVal)
  matchResults : String → String → Except String (List JVal)
  finalists : String → String → Except String (List JVal)
  teams : String → Except String (List JVal)
  skills : String → Except String (List JVal)

/-- Observable actions of one sync run: log-visible event checks, scraper
fetches, durable-store batch writes, low-latency-store writes, and the
progress checkpoint. -/
inductive SyncAction where
  | checkEvent (eventId : String)
  | fetchDetails (eventId : String)
  | fetchRankings (eventId : String) (divId : String)
  | fetchMatches (eventId : String) (divId : String)
  | fetchFinalists (eventId : String) (divId : String)
  | fetchTeams (eventId : String)
  | fetchSkills (eventId : String)
  | fsWrite (collectionPath : String) (docs : List FsDoc)
  | rtdbWrite (path : String) (docs : List FsDoc)
  | progressWrite

/-- The JS startsWith test on strings, computed on character lists. -/
def strStartsWith (s pre : String) : Bool :=
  pre.data.isPrefixOf s.data

/-- The in-memory cache threaded through live mode. -/
abbrev Cache := List (String × JVal)

/-- The skip decision of the orchestrator for full and new modes: live
mode never skips here; a failing database check proceeds; a stored event
record alone is enough to skip in new mode; full mode skips only a past
event whose division-1 match sample is non-empty. -/
def skipDecision (mode : Mode) (env : SyncEnv) (e : JVal) : Bool :=
  if mode == .live then false
  else if !(env.skipCheckOk (eventIdOf e)) then false
  else if !(env.eventExists (eventIdOf e)) then false
  else if mode == .new then true
  else if isPastEvent env.now e then env.matchSample (eventIdOf e)
  else false

/-- The skip decision of the earlier orchestrator variant, identical
except for the completeness marker of full mode: there a past stored
event is skipped exactly when the identity of the sampled division-1
finalist-ranking document starts with the team-disambiguated scheme. -/
def skipDecisionV2 (mode : Mode) (env : SyncEnv) (e : JVal) : Bool :=
  if mode == .live then false
  else if !(env.skipCheckOk (eventIdOf e)) then false
  else if !(env.eventExists (eventIdOf e)) then false
  else if mode == .new then true
  else if isPastEvent env.now e then
    match env.finSample (eventIdOf e) with
    | some docId => strStartsWith docId "team_"
    | none => false
  else false

/-- The JS array of id-and-data objects built for one resource of a
division, as passed to stripNulls and the live cache. -/
def docsVal (docs : List FsDoc) : JVal :=
  .arr (docs.map fun d => .obj [("id", .str d.id), ("data", d.data)])

/-- The live-mode cache-guarded publish of one resource list: when the
stripped documents differ from the cached copy, the documents go to the
low-latency store and the cache takes a JSON round-tripped snapshot of the
stripped documents (the snapshot round trip of the source has no replacer,
which agrees with the replacer round trip on stripped values). -/
def livePublish (pathKind : String) (eid divId : String) (cache : Cache) (docs : List FsDoc) :
    List SyncAction × Cache :=
  let cacheKey := pathKind ++ "_" ++ eid ++ "_" ++ divId
  let cleanDocs := stripNulls (docsVal docs)
  if !(deepEqual ((jsGet cache cacheKey).getD .undef) cleanDocs) then
    ([SyncAction.rtdbWrite ("live/" ++ eid ++ "/" ++ divId ++ "/" ++ pathKind) docs],
     setField cache cacheKey (jsonRT cleanDocs))
  else ([], cache)

/-- Handling of one fetched resource list of a division: a non-empty list
is written durably outside live mode and published through the cache
guard in live mode. -/
def resourceStep (mode : Mode) (pathKind : String) (eid divId : String) (cache : Cache)
    (docs : List FsDoc) : List SyncAction × Cache :=
  if docs.length > 0 then
    if mode != .live then
      ([SyncAction.fsWrite ("events/" ++ eid ++ "/divisions/" ++ divId ++ "/" ++ pathKind) docs],
       cache)
    else livePublish pathKind eid divId cache docs
  else ([], cache)

/-- Per-division processing of the orchestrator: fetch rankings and
handle them, then fetch matches and handle them; the error of the first
failing fetch stops the division and is reported to the event level. -/
def processDivision (mode : Mode) (env : SyncEnv) (eid : String) (cache : Cache) (div : JVal) :
    List SyncAction × Cache × Option String :=
  let divId := divIdOf div
  match env.rankings eid divId with
  | .error err => ([SyncAction.fetchRankings eid divId], cache, some err)
  | .ok rankings =>
      let r1 := resourceStep mode "rankings" eid divId cache
        (rankings.map (fun r => FsDoc.mk (rankingDocId r) r))
      match env.matchResults eid divId with
      | .error err =>
          ([SyncAction.fetchRankings eid divId] ++ r1.1 ++ [SyncAction.fetchMatches eid divId],
           r1.2, some err)
      | .ok ms =>
          let r2 := resourceStep mode "matches" eid divId r1.2
            (ms.map (fun m => FsDoc.mk (matchDocId m) m))
          ([SyncAction.fetchRankings eid divId] ++ r1.1 ++ [SyncAction.fetchMatches eid divId] ++ r2.1,
           r2.2, none)

/-- The division loop, threading the cache and stopping the event at the
first thrown error. -/
def processDivisions (mode : Mode) (env : SyncEnv) (eid : String) :
    List JVal → Cache → List SyncAction × Cache × Option String
  | [], cache => ([], cache, none)
  | div :: rest, cache =>
      let r := processDivision mode env eid cache div
      match r.2.2 with
      | some err => (r.1, r.2.1, some err)
      | none =>
          let rr := processDivisions mode env eid rest r.2.1
          (r.1 ++ rr.1, rr.2.1, rr.2.2)

/-- Per-event processing of the orchestrator: store event metadata in
full and new modes, fetch details for the division list, store divisions
outside live mode, run the division loop, and outside live mode fetch and
store teams, skills and the division-1 finalist rankings.  Any thrown
error stops the event, returning the actions emitted so far and failure. -/
def processEvent (mode : Mode) (env : SyncEnv) (cache : Cache) (e : JVal) :
    List SyncAction × Cache × Bool :=
  let eid := eventIdOf e
  let a1 : List SyncAction :=
    if mode == .full || mode == .new then [SyncAction.fsWrite "events" [FsDoc.mk eid e]] else []
  match env.details eid with
  | .error _ => (a1 ++ [SyncAction.fetchDetails eid], cache, false)
  | .ok details =>
      let divisions := extractDivisions details
      let a2 : List SyncAction :=
        if divisions.length > 0 && mode != .live then
          [SyncAction.fsWrite ("events/" ++ eid ++ "/divisions")
            (divisions.map (fun d => FsDoc.mk (divIdOf d) d))]
        else []
      let rdiv := processDivisions mode env eid divisions cache
      match rdiv.2.2 with
      | some _ => (a1 ++ [SyncAction.fetchDetails eid] ++ a2 ++ rdiv.1, rdiv.2.1, false)
      | none =>
          if mode == .live then
            (a1 ++ [SyncAction.fetchDetails eid] ++ a2 ++ rdiv.1, rdiv.2.1, true)
          else
            match env.teams eid with
            | .error _ =>
                (a1 ++ [SyncAction.fetchDetails eid] ++ a2 ++ rdiv.1 ++ [SyncAction.fetchTeams eid],
                 rdiv.2.1, false)
            | .ok teams =>
                let a4 : List SyncAction :=
                  if teams.length > 0 then
                    [SyncAction.fsWrite ("events/" ++ eid ++ "/teams")
                      (teams.map (fun t => FsDoc.mk (teamDocId t) t))]
                  else []
                match env.skills eid with
                | .error _ =>
                    (a1 ++ [SyncAction.fetchDetails eid] ++ a2 ++ rdiv.1 ++
                      [SyncAction.fetchTeams eid] ++ a4 ++ [SyncAction.fetchSkills eid],
                     rdiv.2.1, false)
                | .ok skills =>
                    let a5 : List SyncAction :=
                      if skills.length > 0 then
                        [SyncAction.fsWrite ("events/" ++ eid ++ "/skills")
                          (skills.map (fun s => FsDoc.mk (skillDocId s) s))]
                      else []
                    match env.finalists eid "1" with
                    | .error _ =>
                        (a1 ++ [SyncAction.fetchDetails eid] ++ a2 ++ rdiv.1 ++
                          [SyncAction.fetchTeams eid] ++ a4 ++ [SyncAction.fetchSkills eid] ++ a5 ++
                          [SyncAction.fetchFinalists eid "1"],
                         rdiv.2.1, false)
                    | .ok finalists =>
                        let a6 : List SyncAction :=
                          if finalists.length > 0 then
                            [SyncAction.fsWrite
                              ("events/" ++ eid ++ "/divisions/1/finalistRankings")
                              (finalists.map (fun f => FsDoc.mk (rankingDocId f) f))]
                          else []
                        (a1 ++ [SyncAction.fetchDetails eid] ++ a2 ++ rdiv.1 ++
                          [SyncAction.fetchTeams eid] ++ a4 ++ [SyncAction.fetchSkills eid] ++ a5 ++
                          [SyncAction.fetchFinalists eid "1"] ++ a6,
                         rdiv.2.1, true)

/-- The event loop: every event is checked; skipped events contribute
only their check; otherwise the event is processed and any thrown error
inside it has already been caught, so the loop always continues with the
next event.  The identity of the last successfully processed event is
tracked for the progress checkpoint. -/
def runEvents (mode : Mode) (env : SyncEnv) :
    List JVal → Cache → Option String → List SyncAction × Option String
  | [], _, lastId => ([], lastId)
  | e :: rest, cache, lastId =>
      let eid := eventIdOf e
      if skipDecision mode env e then
        let rr := runEvents mode env rest cache lastId
        (SyncAction.checkEvent eid :: rr.1, rr.2)
      else
        let pe := processEvent mode env cache e
        let lastId2 := if pe.2.2 then some eid else lastId
        let rr := runEvents mode env rest pe.2.1 lastId2
        (SyncAction.checkEvent eid :: (pe.1 ++ rr.1), rr.2)

/-- Embedding of the sync orchestrator: fetch the season event list (a
failure there escapes the run through the outer catch), pre-filter to the
events happening today in live mode, run the event loop, and write one
progress checkpoint when at least one event was processed successfully. -/
def sync (mode : Mode) (env : SyncEnv) (cache : Cache) : Except String (List SyncAction) :=
  match env.events with
  | .error err => .error err
  | .ok events0 =>
      let today := isoDateOfMs env.now
      let events := if mode == .live then events0.filter (liveFilter today) else events0
      let r := runEvents mode env events cache none
      .ok (r.1 ++ (if r.2.isSome then [SyncAction.progressWrite] else []))

/-- Oracle environment for the skip-decision counterexample: the event
record exists in the durable store, the database checks succeed, the
stored division-1 finalist sample uses the team-disambiguated identity
scheme, and the division-1 match sample is empty. -/
def envC4 : SyncEnv :=
  { events := .ok []
    now := 200000000
    eventExists := fun _ => true
    skipCheckOk := fun _ => true
    matchSample := fun _ => false
    finSample := fun _ => some "team_123"
    details := fun _ => .ok .null
    rankings := fun _ _ => .ok []
    matchResults := fun _ _ => .ok []
    finalists := fun _ _ => .ok []
    teams := fun _ => .ok []
    skills := fun _ => .ok [] }

/-- The event of the counterexample: already stored, ended far more than
a day before now. -/
def eventC4 : JVal := .obj [("id", .num 42), ("end", .num 1000)]

/-- C4 counterexample to the claim as stated: in the current
orchestrator a past stored event whose finalist-ranking sample uses
team-disambiguated identities is nevertheless re-processed (not skipped)
when its division-1 match sample is empty, because the full-mode skip
decision tests the match sample, not the finalist identity scheme; the
earlier orchestrator variant does skip this event. -/
theorem skip_full_counterexample :
    skipDecision .full envC4 eventC4 = false ∧
    envC4.finSample (eventIdOf eventC4) = some "team_123" ∧
    envC4.eventExists (eventIdOf eventC4) = true ∧
    isPastEvent envC4.now eventC4 = true ∧
    skipDecisionV2 .full envC4 eventC4 = true := by
  refine ⟨by decide, rfl, rfl, by decide, by decide⟩

/-- C4 (amended): for a stored past event with working database checks,
full mode of the current orchestrator skips exactly when the division-1
match sample is non-empty, while the earlier orchestrator variant skips
exactly when the sampled division-1 finalist-ranking identity starts with
the team-disambiguated prefix string, so only that variant re-processes a
plain numeric finalist sample and skips a team-disambiguated one. -/
theorem skip_full_heuristics (env : SyncEnv) (e : JVal)
    (hok : env.skipCheckOk (eventIdOf e) = true)
    (hex : env.eventExists (eventIdOf e) = true)
    (hpast : isPastEvent env.now e = true) :
    skipDecision .full env e = env.matchSample (eventIdOf e) ∧
    skipDecisionV2 .full env e =
      (match env.finSample (eventIdOf e) with
       | some docId => strStartsWith docId "team_"
       | none => false) := by
  constructor
  · simp [skipDecision, hok, hex, hpast]
  · simp [skipDecisionV2, hok, hex, hpast]

/-- Witness for the amended C4 at the concrete counterexample inputs. -/
theorem skip_full_heuristics_witness :
    skipDecision .full envC4 eventC4 = envC4.matchSample (eventIdOf eventC4) ∧
    skipDecisionV2 .full envC4 eventC4 =
      (match envC4.finSample (eventIdOf eventC4) with
       | some docId => strStartsWith docId "team_"
       | none => false) :=
  skip_full_heuristics envC4 eventC4 (by decide) (by decide) (by decide)

/-- Whether an action is the per-event console check of the loop head. -/
def isCheck : SyncAction → Bool
  | .checkEvent _ => true
  | _ => false

/-- The event identity of a check action. -/
def checkFn : SyncAction → Option String
  | .checkEvent i => some i
  | _ => none

/-- Shape of the actions emitted inside one live-mode event: the details
fetch, per-division rankings and matches fetches, and low-latency writes
at live rankings or matches paths only. -/
def liveEventAction : SyncAction → Prop
  | .fetchDetails _ => True
  | .fetchRankings _ _ => True
  | .fetchMatches _ _ => True
  | .rtdbWrite p _ => ∃ eid divId,
      p = "live/" ++ eid ++ "/" ++ divId ++ "/rankings" ∨
      p = "live/" ++ eid ++ "/" ++ divId ++ "/matches"
  | _ => False

theorem checkFn_eq_none {a : SyncAction} (h : isCheck a = false) : checkFn a = none := by
  cases a <;> simp [checkFn] <;> simp [isCheck] at h

theorem resourceStep_no_check (mode : Mode) (pathKind eid divId : String) (cache : Cache)
    (docs : List FsDoc) :
    ∀ a ∈ (resourceStep mode pathKind eid divId cache docs).1, isCheck a = false := by
  intro a ha
  simp only [resourceStep, livePublish] at ha
  split at ha
  · split at ha
    · simp at ha
      subst ha
      rfl
    · split at ha
      · simp at ha
        subst ha
        rfl
      · simp at ha
  · simp at ha

theorem processDivision_no_check (mode : Mode) (env : SyncEnv) (eid : String) (cache : Cache)
    (div : JVal) :
    ∀ a ∈ (processDivision mode env eid cache div).1, isCheck a = false := by
  intro a ha
  simp only [processDivision] at ha
  split at ha
  · simp at ha
    subst ha
    rfl
  · split at ha
    · simp only [List.mem_append, List.mem_singleton] at ha
      rcases ha with (ha | ha) | ha
      · subst ha; rfl
      · exact resourceStep_no_check _ _ _ _ _ _ a ha
      · subst ha; rfl
    · simp only [List.mem_append, List.mem_singleton] at ha
      rcases ha with ((ha | ha) | ha) | ha
      · subst ha; rfl
      · exact resourceStep_no_check _ _ _ _ _ _ a ha
      · subst ha; rfl
      · exact resourceStep_no_check _ _ _ _ _ _ a ha

theorem processDivisions_no_check (mode : Mode) (env : SyncEnv) (eid : String) :
    ∀ (divs : List JVal) (cache : Cache),
      ∀ a ∈ (processDivisions mode env eid divs cache).1, isCheck a = false := by
  intro divs
  induction divs with
  | nil => intro cache a ha; simp [processDivisions] at ha
  | cons div rest ih =>
      intro cache a ha
      simp only [processDivisions] at ha
      split at ha
      · exact processDivision_no_check mode env eid cache div a ha
      · simp only [List.mem_append] at ha
        rcases ha with ha | ha
        · exact processDivision_no_check mode env eid cache div a ha
        · exact ih _ a ha

theorem processEvent_no_check (mode : Mode) (env : SyncEnv) (cache : Cache) (e : JVal) :
    ∀ a ∈ (processEvent mode env cache e).1, isCheck a = false := by
  intro a ha
  have hdiv := processDivisions_no_check mode env (eventIdOf e)
  simp only [processEvent] at ha
  repeat' split at ha
  all_goals simp only [List.mem_append, List.mem_singleton, List.not_mem_nil, or_false,
    false_or] at ha
  all_goals repeat' rcases ha with ha | ha
  all_goals first
    | exact hdiv _ _ a ha
    | (subst ha; rfl)
    | rfl
    | cases ha

theorem runEvents_all_checked (mode : Mode) (env : SyncEnv) :
    ∀ (evs : List JVal) (cache : Cache) (lastId : Option String),
      ((runEvents mode env evs cache lastId).1.filterMap checkFn) = evs.map eventIdOf := by
  intro evs
  induction evs with
  | nil => intro cache lastId; rfl
  | cons e rest ih =>
      intro cache lastId
      have hpe : ∀ cache2 : Cache,
          ((processEvent mode env cache2 e).1.filterMap checkFn) = [] := by
        intro cache2
        exact List.filterMap_eq_nil_iff.mpr
          (fun a ha => checkFn_eq_none (processEvent_no_check mode env cache2 e a ha))
      simp only [runEvents]
      split
      · simp only [List.filterMap_cons, checkFn, List.map_cons, ih]
      · simp only [List.filterMap_cons, checkFn, List.filterMap_append, hpe,
          List.nil_append, List.map_cons, ih]

/-- Oracle environment for the C7 witness run: one event listed, whose
details scrape throws; every database check succeeds. -/
def envC7ok : SyncEnv :=
  { envC4 with
      events := .ok [eventC4]
      matchSample := fun _ => true
      details := fun _ => .error "boom" }

/-- Oracle environment for the C7 witness run whose season event listing
itself throws. -/
def envC7err : SyncEnv :=
  { envC4 with events := .error "listing failed" }

/-- C7: one event's failure never aborts the run, failures at the event
listing level do.  Whenever the season event listing succeeds the run
returns normally - whatever the per-event scrapers and writers do, every
thrown per-event error having been caught inside the loop - and the trace
checks every event of the (live-filtered) list in order; whenever the
event listing itself fails, the run fails with exactly that error. -/
theorem sync_event_isolation (mode : Mode) (env : SyncEnv) (cache : Cache) :
    (∀ evs, env.events = Except.ok evs →
      ∃ tr, sync mode env cache = Except.ok tr ∧
        tr.filterMap checkFn =
          (if mode == Mode.live then evs.filter (liveFilter (isoDateOfMs env.now))
           else evs).map eventIdOf) ∧
    (∀ err, env.events = Except.error err → sync mode env cache = Except.error err) := by
  constructor
  · intro evs hevs
    have hb : ∀ b : Bool,
        (List.filterMap checkFn (if b then [SyncAction.progressWrite] else [])) = [] := by
      intro b; cases b <;> rfl
    unfold sync
    rw [hevs]
    refine ⟨_, rfl, ?_⟩
    simp only [List.filterMap_append, hb, List.append_nil]
    exact runEvents_all_checked mode env _ cache none
  · intro err herr
    simp only [sync, herr]

/-- Witness for C7 at the concrete oracle environments: the run with the
throwing details scrape still returns normally and checks the single
listed event; the run with the throwing event listing fails with that
listing error. -/
theorem sync_event_isolation_witness :
    (∃ tr, sync Mode.full envC7ok [] = Except.ok tr ∧
       tr.filterMap checkFn = [eventC4].map eventIdOf) ∧
    sync Mode.full envC7err [] = Except.error "listing failed" :=
  ⟨(sync_event_isolation Mode.full envC7ok []).1 [eventC4] rfl,
   (sync_event_isolation Mode.full envC7err []).2 "listing failed" rfl⟩

theorem slash_append_rankings (x : String) : x ++ "/" ++ "rankings" = x ++ "/rankings" := by
  rw [String.append_assoc]
  rfl

theorem slash_append_matches (x : String) : x ++ "/" ++ "matches" = x ++ "/matches" := by
  rw [String.append_assoc]
  rfl

theorem livePublish_live (pathKind eid divId : String) (cache : Cache) (docs : List FsDoc)
    (hpk : pathKind = "rankings" ∨ pathKind = "matches") :
    ∀ a ∈ (livePublish pathKind eid divId cache docs).1, liveEventAction a := by
  intro a ha
  simp only [livePublish] at ha
  split at ha
  · simp only [List.mem_singleton] at ha
    subst ha
    rcases hpk with h | h <;> subst h
    · exact ⟨eid, divId, Or.inl (slash_append_rankings _)⟩
    · exact ⟨eid, divId, Or.inr (slash_append_matches _)⟩
  · simp at ha

theorem resourceStep_live (pathKind eid divId : String) (cache : Cache) (docs : List FsDoc)
    (hpk : pathKind = "rankings" ∨ pathKind = "matches") :
    ∀ a ∈ (resourceStep Mode.live pathKind eid divId cache docs).1, liveEventAction a := by
  intro a ha
  have hre : resourceStep Mode.live pathKind eid divId cache docs =
      (if docs.length > 0 then livePublish pathKind eid divId cache docs
       else ([], cache)) := rfl
  rw [hre] at ha
  split at ha
  · exact livePublish_live pathKind eid divId cache docs hpk a ha
  · simp at ha

theorem processDivision_live (env : SyncEnv) (eid : String) (cache : Cache) (div : JVal) :
    ∀ a ∈ (processDivision Mode.live env eid cache div).1, liveEventAction a := by
  intro a ha
  simp only [processDivision] at ha
  split at ha
  · simp only [List.mem_singleton] at ha; subst ha; exact trivial
  · split at ha
    · simp only [List.mem_append, List.mem_singleton] at ha
      rcases ha with (ha | ha) | ha
      · subst ha; exact trivial
      · exact resourceStep_live _ _ _ _ _ (Or.inl rfl) a ha
      · subst ha; exact trivial
    · simp only [List.mem_append, List.mem_singleton] at ha
      rcases ha with ((ha | ha) | ha) | ha
      · subst ha; exact trivial
      · exact resourceStep_live _ _ _ _ _ (Or.inl rfl) a ha
      · subst ha; exact trivial
      · exact resourceStep_live _ _ _ _ _ (Or.inr rfl) a ha

theorem processDivisions_live (env : SyncEnv) (eid : String) :
    ∀ (divs : List JVal) (cache : Cache),
      ∀ a ∈ (processDivisions Mode.live env eid divs cache).1, liveEventAction a := by
  intro divs
  induction divs with
  | nil => intro cache a ha; simp [processDivisions] at ha
  | cons div rest ih =>
      intro cache a ha
      simp only [processDivisions] at ha
      split at ha
      · exact processDivision_live env eid cache div a ha
      · simp only [List.mem_append] at ha
        rcases ha with ha | ha
        · exact processDivision_live env eid cache div a ha
        · exact ih _ a ha

theorem processEvent_live (env : SyncEnv) (cache : Cache) (e : JVal) :
    ∀ a ∈ (processEvent Mode.live env cache e).1, liveEventAction a := by
  intro a ha
  have hdiv := processDivisions_live env (eventIdOf e)
  simp only [processEvent, show (Mode.live != Mode.live) = false from rfl,
    show (Mode.live == Mode.full || Mode.live == Mode.new) = false from rfl,
    show (Mode.live == Mode.live) = true from rfl,
    Bool.and_false, Bool.false_eq_true, if_false, reduceIte, List.nil_append] at ha
  repeat' split at ha
  all_goals simp only [List.mem_append, List.mem_singleton, List.mem_cons,
    List.not_mem_nil, or_false, false_or] at ha
  all_goals repeat' rcases ha with ha | ha
  all_goals first
    | exact hdiv _ _ a ha
    | (subst ha; exact trivial)
    | exact trivial
    | cases ha

theorem runEvents_live (env : SyncEnv) :
    ∀ (evs : List JVal) (cache : Cache) (lastId : Option String),
      ∀ a ∈ (runEvents Mode.live env evs cache lastId).1,
        isCheck a = true ∨ liveEventAction a := by
  intro evs
  induction evs with
  | nil => intro cache lastId a ha; simp [runEvents] at ha
  | cons e rest ih =>
      intro cache lastId a ha
      simp only [runEvents, show skipDecision Mode.live env e = false from rfl,
        Bool.false_eq_true, if_false] at ha
      simp only [List.mem_cons, List.mem_append] at ha
      rcases ha with ha | (ha | ha)
      · subst ha; exact Or.inl rfl
      · exact Or.inr (processEvent_live env cache e a ha)
      · exact ih _ _ a ha

/-- The one event of the live-mode witness run, happening today: now is
inside the start-to-end range. -/
def eventC2live : JVal :=
  .obj [("id", .num 7), ("start", .num 0), ("end", .num 400000000)]

/-- Oracle environment for the live-mode witness run: one listed event
running today, a single division, and empty rankings and matches lists. -/
def envC2 : SyncEnv :=
  { events := .ok [eventC2live]
    now := 200000000
    eventExists := fun _ => false
    skipCheckOk := fun _ => true
    matchSample := fun _ => false
    finSample := fun _ => none
    details := fun _ => .ok (.obj [("divisions",
      .arr [.obj [("id", .num 1), ("name", .str "Main"), ("order", .num 1)]])])
    rankings := fun _ _ => .ok []
    matchResults := fun _ _ => .ok []
    finalists := fun _ _ => .ok []
    teams := fun _ => .ok []
    skills := fun _ => .ok [] }

/-- C2: the live-mode frame.  When the season event listing succeeds,
live mode returns normally with a trace that checks exactly the events
whose day range includes today, in order; the trace contains no durable
store write at all, never fetches teams, skills or finalist rankings, and
every low-latency store write is at a live rankings or matches path of
some event and division. -/
theorem live_mode_frame (env : SyncEnv) (cache : Cache) (evs : List JVal)
    (h : env.events = Except.ok evs) :
    ∃ tr, sync Mode.live env cache = Except.ok tr ∧
      tr.filterMap checkFn =
        (evs.filter (liveFilter (isoDateOfMs env.now))).map eventIdOf ∧
      (∀ p docs, SyncAction.fsWrite p docs ∉ tr) ∧
      (∀ eid, SyncAction.fetchTeams eid ∉ tr) ∧
      (∀ eid, SyncAction.fetchSkills eid ∉ tr) ∧
      (∀ eid divId, SyncAction.fetchFinalists eid divId ∉ tr) ∧
      (∀ p docs, SyncAction.rtdbWrite p docs ∈ tr →
        ∃ eid divId, p = "live/" ++ eid ++ "/" ++ divId ++ "/rankings" ∨
          p = "live/" ++ eid ++ "/" ++ divId ++ "/matches") := by
  have hall := runEvents_live env
    (evs.filter (liveFilter (isoDateOfMs env.now))) cache none
  have hp : ∀ (b : Bool) (a : SyncAction),
      a ∈ (if b then [SyncAction.progressWrite] else []) →
      a = SyncAction.progressWrite := by
    intro b a hm
    cases b
    · cases hm
    · simpa using hm
  unfold sync
  rw [h]
  refine ⟨_, rfl, ?_, ?_, ?_, ?_, ?_, ?_⟩
  · have hb : ∀ b : Bool,
        (List.filterMap checkFn (if b then [SyncAction.progressWrite] else [])) = [] := by
      intro b; cases b <;> rfl
    simp only [List.filterMap_append, hb, List.append_nil]
    exact runEvents_all_checked Mode.live env _ cache none
  · intro p docs hmem
    rcases List.mem_append.mp hmem with hm | hm
    · rcases hall _ hm with hc | hl
      · exact Bool.noConfusion hc
      · exact hl
    · cases hp _ _ hm
  · intro eid hmem
    rcases List.mem_append.mp hmem with hm | hm
    · rcases hall _ hm with hc | hl
      · exact Bool.noConfusion hc
      · exact hl
    · cases hp _ _ hm
  · intro eid hmem
    rcases List.mem_append.mp hmem with hm | hm
    · rcases hall _ hm with hc | hl
      · exact Bool.noConfusion hc
      · exact hl
    · cases hp _ _ hm
  · intro eid divId hmem
    rcases List.mem_append.mp hmem with hm | hm
    · rcases hall _ hm with hc | hl
      · exact Bool.noConfusion hc
      · exact hl
    · cases hp _ _ hm
  · intro p docs hmem
    rcases List.mem_append.mp hmem with hm | hm
    · rcases hall _ hm with hc | hl
      · exact Bool.noConfusion hc
      · exact hl
    · cases hp _ _ hm

/-- Witness for C2 at the concrete live oracle environment. -/
theorem live_mode_frame_witness :
    ∃ tr, sync Mode.live envC2 [] = Except.ok tr ∧
      tr.filterMap checkFn =
        ([eventC2live].filter (liveFilter (isoDateOfMs envC2.now))).map eventIdOf ∧
      (∀ p docs, SyncAction.fsWrite p docs ∉ tr) ∧
      (∀ eid, SyncAction.fetchTeams eid ∉ tr) ∧
      (∀ eid, SyncAction.fetchSkills eid ∉ tr) ∧
      (∀ eid divId, SyncAction.fetchFinalists eid divId ∉ tr) ∧
      (∀ p docs, SyncAction.rtdbWrite p docs ∈ tr →
        ∃ eid divId, p = "live/" ++ eid ++ "/" ++ divId ++ "/rankings" ∨
          p = "live/" ++ eid ++ "/" ++ divId ++ "/matches") :=
  live_mode_frame envC2 [] [eventC2live] rfl
